import Mathlib

/-!
Verification development for the declarative-index-to-schema-annotation
synthesizer of package `gormschema` (file `index_definition.go`).

The Go source is shallowly embedded: pure string manipulation is translated
to executable Lean functions over `String` and `List Char`; reflection-based
introspection (`reflect.Value`, method lookup, address comparison) is
translated to explicit data types that record exactly the observations the
source code makes (function shape, the identity of the returned address,
presence and signature of the `Indexes` method, struct-ness of the model).

Section 1: Go standard-library string primitives used by the source
(`strings.TrimSpace`, `strings.Split` on a one-character separator,
`strings.Join`, `strings.HasPrefix`), embedded over `List Char` so that all
definitions compute.
-/

/-- One-character-separator split, as Go `strings.Split(s, sep)` behaves for a
one-character separator: `""` splits to `[""]`, separators at the ends yield
empty pieces. -/
def splitChar (sep : Char) : List Char → List (List Char)
  | [] => [[]]
  | c :: rest =>
    match splitChar sep rest with
    | [] => [[]]
    | cur :: acc => if c = sep then [] :: cur :: acc else (c :: cur) :: acc

/-- Go `strings.Split(s, ";")` lifted to `String`. -/
def strSplitSemi (s : String) : List String :=
  (splitChar ';' s.data).map String.mk

/-- Go `strings.Join(parts, sep)`. -/
def joinStr (sep : String) : List String → String
  | [] => ""
  | [x] => x
  | x :: y :: xs => x ++ sep ++ joinStr sep (y :: xs)

/-- The ASCII white-space set of Go `unicode.IsSpace` (the source only ever
feeds ASCII annotation text through `strings.TrimSpace`; non-ASCII Unicode
spaces are not modelled). -/
def goIsSpace (c : Char) : Bool :=
  c = ' ' || c = '\t' || c = '\n' || c = '\x0b' || c = '\x0c' || c = '\r'

/-- Remove trailing characters satisfying `p`. -/
def dropTrail (p : Char → Bool) (l : List Char) : List Char :=
  (l.reverse.dropWhile p).reverse

/-- Go `strings.TrimSpace` on the character list. -/
def trimList (l : List Char) : List Char :=
  dropTrail goIsSpace (l.dropWhile goIsSpace)

/-- Go `strings.TrimSpace`. -/
def trimSpace (s : String) : String :=
  String.mk (trimList s.data)

/-- Go `strings.HasPrefix(s, pre)`, as a recursive test on character lists:
`listPre pre.data s.data`. -/
def listPre : List Char → List Char → Bool
  | [], _ => true
  | _ :: _, [] => false
  | a :: as, b :: bs => a == b && listPre as bs

/-- Go `toSnakeCase` (`index_definition.go` lines 395-419): converts a Go
field name to snake_case, inserting `_` before an upper-case letter exactly
when it is not at the start and the previous or the following rune is
lower-case, and lowercasing upper-case letters by adding 32 to the code
point. -/
def toSnakeCase (s : String) : String :=
  if s = "" then s
  else
    String.mk ((List.range s.data.length).flatMap (fun i =>
      let r := s.data.getD i ' '
      if 'A' ≤ r ∧ r ≤ 'Z' then
        (if i > 0 then
          let prev := s.data.getD (i - 1) ' '
          let next := s.data.getD (i + 1) ' '
          let prevLower := 'a' ≤ prev ∧ prev ≤ 'z'
          let nextLower := i + 1 < s.data.length ∧ 'a' ≤ next ∧ next ≤ 'z'
          if prevLower ∨ nextLower then ['_'] else []
        else []) ++ [Char.ofNat (r.toNat + 32)]
      else [r]))

/-!
Section 2: struct-tag parsing and re-serialization.

`parseStructTag` in the source runs the regular expression
`(\w+):"([^"]*)"` with `FindAllStringSubmatch` over the raw tag text and
folds the matches into a map (later assignments to the same key overwrite).
For this regular expression, RE2's leftmost-match semantics coincide with a
deterministic one-pass scanner: a match is a maximal run of word characters
immediately followed by `:` and `"`, whose value extends to the next `"`.
`scanGo` is that scanner, written as a state machine so that it is
structurally recursive and computes by `decide`.
-/

/-- Go regexp `\w`: ASCII letters, digits and underscore. -/
def wordChar (c : Char) : Bool :=
  ('a' ≤ c && c ≤ 'z') || ('A' ≤ c && c ≤ 'Z') || ('0' ≤ c && c ≤ '9') || c = '_'

/-- Scanner state for the tag regular expression: seeking a match start,
inside a key run, after the key's `:` expecting `"`, or inside a value. -/
inductive ScanState where
  | seek : ScanState
  | key (k : List Char) : ScanState
  | afterColon (k : List Char) : ScanState
  | val (k v : List Char) : ScanState
deriving DecidableEq, Repr

/-- One-pass scanner equivalent to `FindAllStringSubmatch` of
`(\w+):"([^"]*)"`: returns the (key, value) capture pairs in match order. -/
def scanGo : ScanState → List Char → List (List Char × List Char)
  | _, [] => []
  | .seek, c :: rest =>
    if wordChar c then scanGo (.key [c]) rest else scanGo .seek rest
  | .key k, c :: rest =>
    if wordChar c then scanGo (.key (k ++ [c])) rest
    else if c = ':' then scanGo (.afterColon k) rest
    else scanGo .seek rest
  | .afterColon k, c :: rest =>
    if c = '"' then scanGo (.val k []) rest
    else if wordChar c then scanGo (.key [c]) rest
    else scanGo .seek rest
  | .val k v, c :: rest =>
    if c = '"' then (k, v) :: scanGo .seek rest
    else scanGo (.val k (v ++ [c])) rest

/-- Assignment `out[k] = v` on an association list with unique keys: replace
in place if the key is present, append otherwise (order is irrelevant to the
source, which sorts on serialization). -/
def insertKV : List (String × String) → String → String → List (String × String)
  | [], k, v => [(k, v)]
  | (k', v') :: rest, k, v =>
    if k' = k then (k, v) :: rest else (k', v') :: insertKV rest k v

/-- Go map read `kv[k]` with the zero-value default `""`. -/
def lookupD (kv : List (String × String)) (k : String) : String :=
  match kv.find? (fun p => p.1 = k) with
  | some p => p.2
  | none => ""

/-- Go `delete(kv, k)`. -/
def eraseKey (kv : List (String × String)) (k : String) : List (String × String) :=
  kv.filter (fun p => p.1 ≠ k)

/-- Go `parseStructTag` (`index_definition.go` lines 329-336). -/
def parseStructTag (tag : String) : List (String × String) :=
  (scanGo .seek tag.data).foldl (fun kv p => insertKV kv (String.mk p.1) (String.mk p.2)) []

/-- The serialized form `k:"v"` of one tag entry (`fmt.Sprintf` in
`buildStructTag`). -/
def partStr (p : String × String) : String :=
  p.1 ++ ":\"" ++ p.2 ++ "\""

/-- Lexicographic order on character lists; on strings this is the order
`sort.Strings` sorts by (bytewise UTF-8 comparison coincides with code-point
lexicographic comparison). -/
def charsLe : List Char → List Char → Bool
  | [], _ => true
  | _ :: _, [] => false
  | a :: as, b :: bs => if a = b then charsLe as bs else decide (a < b)

/-- String comparison used by `sort.Strings`. -/
def strLeB (a b : String) : Bool :=
  charsLe a.data b.data

/-- Go `buildStructTag` (`index_definition.go` lines 338-348): serialize each
entry as `k:"v"`, sort the parts lexicographically (`sort.Strings`), join
with single spaces; the empty map serializes to the empty tag. -/
def buildStructTag (kv : List (String × String)) : String :=
  if kv.isEmpty then ""
  else joinStr " " (List.insertionSort (fun a b : String => strLeB a b = true) (kv.map partStr))

/-- The filtering loop of `stripIndexPiecesFromGormTag`: trim each
`;`-separated piece and drop those whose trimmed form starts with `index:`
or `uniqueIndex:`. -/
def stripKeep : List String → List String
  | [] => []
  | p :: ps =>
    let pp := trimSpace p
    if listPre "index:".data pp.data || listPre "uniqueIndex:".data pp.data
    then stripKeep ps
    else pp :: stripKeep ps

/-- Go `stripIndexPiecesFromGormTag` (`index_definition.go` lines 351-365). -/
def stripIndexPiecesFromGormTag (gormTag : String) : String :=
  if gormTag = "" then ""
  else joinStr ";" (stripKeep (strSplitSemi gormTag))

/-- Go `mergeIndexIntoGormTag` (`index_definition.go` lines 367-384). -/
def mergeIndexIntoGormTag (orig : String) (toAdd : List String) : String :=
  let kv := parseStructTag orig
  let gormVal := stripIndexPiecesFromGormTag (lookupD kv "gorm")
  let gormVal :=
    if toAdd.length > 0 then
      let add := joinStr ";" toAdd
      if gormVal = "" then add else gormVal ++ ";" ++ add
    else gormVal
  if gormVal = "" then buildStructTag (eraseKey kv "gorm")
  else buildStructTag (insertKV kv "gorm" gormVal)

example : parseStructTag "json:\"a\" gorm:\"index:i;not null\"" =
    [("json", "a"), ("gorm", "index:i;not null")] := by decide
example : stripIndexPiecesFromGormTag "not null;index:i; uniqueIndex:u ;x" = "not null;x" := by
  decide
example : mergeIndexIntoGormTag "" ["index:i,priority:1"] = "gorm:\"index:i,priority:1\"" := by
  decide
example : mergeIndexIntoGormTag "json:\"a\" gorm:\"index:old;not null\"" ["index:i,priority:1"] =
    "gorm:\"not null;index:i,priority:1\" json:\"a\"" := by decide
example : mergeIndexIntoGormTag "gorm:\"index:old\"" [] = "" := by decide

/-!
Section 3: the reflection data model.

`fieldNameFromSelectorValue` observes, of a selector value: whether it is a
function, its arity and shape, and — after invoking it once on a freshly
allocated zero probe — which address the returned `any` wraps.  The embedding
records the result of that single invocation as a `SelReturn`: either the
address is identical to the address of top-level field `i` of the probe, or
it is a non-nil pointer that matches no top-level field address (a local
variable, an unrelated allocation, or a nested/embedded sub-field), or the
returned value is a nil interface, a non-pointer, or a nil pointer.
Addresses of distinct top-level fields are distinct (the source's fields are
all of non-zero size).  The pair returned by the Lean function carries the
number of times the selector was invoked.
-/

/-- Outcome of invoking a selector on a fresh zero-valued probe instance,
after unwrapping the `any` interface. -/
inductive SelReturn where
  | fieldAddr (i : Nat) : SelReturn
  | otherAddr : SelReturn
  | nilInterface : SelReturn
  | notPtr : SelReturn
  | nilPtr : SelReturn
deriving DecidableEq, Repr

/-- The observations `fieldNameFromSelectorValue` makes of the selector
value: `reflect.Kind` func-ness, `NumIn`, pointer-ness of the argument type,
`NumOut`, and the single invocation's result. -/
structure Selector where
  isFunc : Bool
  numIn : Nat
  argIsPtr : Bool
  numOut : Nat
  ret : SelReturn
deriving DecidableEq, Repr

/-- A well-shaped selector: `func(*T) any`. -/
def Selector.ok (sel : Selector) : Prop :=
  sel.isFunc = true ∧ sel.numIn = 1 ∧ sel.argIsPtr = true ∧ sel.numOut = 1

instance (sel : Selector) : Decidable sel.ok := by
  unfold Selector.ok; infer_instance

/-- One top-level field of the model struct: its Go name, whether it is
exported (`PkgPath == ""`), and its raw struct tag. -/
structure GoField where
  name : String
  exported : Bool
  tag : String
deriving DecidableEq, Repr

/-- Errors of `fieldNameFromSelectorValue`, one per `fmt.Errorf` site. -/
inductive SelErr where
  | selNotAFunc : SelErr
  | selBadShape : SelErr
  | selNilInterface : SelErr
  | selNotAPointer : SelErr
  | selectorNotATopLevelField : SelErr
deriving DecidableEq, Repr

/-- The matching loop of `fieldNameFromSelectorValue` (lines 312-323):
compare the returned address against the address of every top-level field,
skipping unexported ones; under distinct field addresses, the address of
field `i` matches field `i` alone. -/
def matchTopLevelField (fields : List GoField) (i : Nat) : Option String :=
  match fields.get? i with
  | some f => if f.exported then some f.name else none
  | none => none

/-- Go `fieldNameFromSelectorValue` (`index_definition.go` lines 281-325).
The second component counts how many times the selector was invoked. -/
def fieldNameFromSelectorValue (fields : List GoField) (sel : Selector) :
    Except SelErr String × Nat :=
  if sel.isFunc = false then (.error .selNotAFunc, 0)
  else if sel.numIn ≠ 1 ∨ sel.argIsPtr = false ∨ sel.numOut ≠ 1 then (.error .selBadShape, 0)
  else
    match sel.ret with
    | .nilInterface => (.error .selNilInterface, 1)
    | .notPtr => (.error .selNotAPointer, 1)
    | .nilPtr => (.error .selNotAPointer, 1)
    | .fieldAddr i =>
      (match matchTopLevelField fields i with
       | some name => (.ok name, 1)
       | none => (.error .selectorNotATopLevelField, 1))
    | .otherAddr => (.error .selectorNotATopLevelField, 1)

/-- `Col[T]`: column selector plus per-column options (`index_definition.go`
lines 17-22).  Go field names `Sort` and `Type` collide with Lean keywords,
so they are rendered `SortVal` (and, in `IndexDefinition`, `Typ`). -/
structure Col where
  Sel : Selector
  SortVal : String
  Nulls : String
  OpClass : String
deriving DecidableEq, Repr

/-- `IndexDefinition[T]` (`index_definition.go` lines 32-39). -/
structure IndexDefinition where
  Name : String
  Columns : List Col
  Unique : Bool
  Where : String
  Typ : String
  Extensions : List String
deriving DecidableEq, Repr

/-- The per-column `parts` list assembled by
`collectIndexTagsFromIndexesValue` (lines 246-273) for the column at
zero-based position `j`, once its selector has resolved to `fname`:
`index:<Name>` and `priority:<j+1>` unconditionally; `sort:<dir>` (with
` nulls <n>` appended when set) when the trimmed sort is non-empty; `unique`,
`where:<W>`, `type:<T>` only at position 0 and only when set after trimming;
`expression:<snake(fname)> <class>` whenever the trimmed operator class is
non-empty. -/
def colParts (d : IndexDefinition) (j : Nat) (c : Col) (fname : String) : List String :=
  ["index:" ++ d.Name, "priority:" ++ toString (j + 1)]
  ++ (if trimSpace c.SortVal ≠ "" then
        [if trimSpace c.Nulls ≠ "" then
          "sort:" ++ trimSpace c.SortVal ++ " nulls " ++ trimSpace c.Nulls
         else "sort:" ++ trimSpace c.SortVal]
      else [])
  ++ (if j = 0 ∧ d.Unique = true then ["unique"] else [])
  ++ (if j = 0 ∧ trimSpace d.Where ≠ "" then ["where:" ++ trimSpace d.Where] else [])
  ++ (if j = 0 ∧ trimSpace d.Typ ≠ "" then ["type:" ++ trimSpace d.Typ] else [])
  ++ (if trimSpace c.OpClass ≠ "" then
        ["expression:" ++ toSnakeCase fname ++ " " ++ trimSpace c.OpClass]
      else [])

/-- The error wrapper `fmt.Errorf("index %q column %d: %w", name, j+1, err)`
(line 243): index name, one-based column position, wrapped selector error. -/
inductive CollectErr where
  | colSelErr (indexName : String) (colPos : Nat) (e : SelErr) : CollectErr
deriving DecidableEq, Repr

/-- Inner column loop of `collectIndexTagsFromIndexesValue` (lines 224-276),
emitting for each column the pair (resolved field name, joined fragment). -/
def collectCols (fields : List GoField) (d : IndexDefinition) (j : Nat) :
    List Col → Except CollectErr (List (String × String))
  | [] => .ok []
  | c :: cs =>
    match (fieldNameFromSelectorValue fields c.Sel).1 with
    | .error e => .error (.colSelErr d.Name (j + 1) e)
    | .ok fname =>
      match collectCols fields d (j + 1) cs with
      | .error e => .error e
      | .ok rest => .ok ((fname, joinStr "," (colParts d j c fname)) :: rest)

/-- Outer declaration loop of `collectIndexTagsFromIndexesValue`
(lines 194-277), concatenating the (field, fragment) pairs in iteration
order. -/
def collectDefs (fields : List GoField) :
    List IndexDefinition → Except CollectErr (List (String × String))
  | [] => .ok []
  | d :: ds =>
    match collectCols fields d 0 d.Columns with
    | .error e => .error e
    | .ok ps =>
      match collectDefs fields ds with
      | .error e => .error e
      | .ok qs => .ok (ps ++ qs)

/-- Go `collectIndexTagsFromIndexesValue` (lines 191-279) as the map from a
field name to its accumulated fragment list (Go appends into
`fieldToIndexTags[fname]` in iteration order; a missing key reads as `nil`).
The typed embedding cannot represent the dynamic-shape failure branches
(`not a struct`, `doesn't look like IndexDefinition`, `Columns is not a
slice`, `missing Sel`): those inspect malformed `reflect` values that a
well-typed `[]IndexDefinition[T]` cannot produce. -/
def collectIndexTagsFromIndexesValue (fields : List GoField) (defs : List IndexDefinition) :
    Except CollectErr (String → List String) :=
  (collectDefs fields defs).map (fun ps n => (ps.filter (fun p => p.1 = n)).map (fun p => p.2))

/-- The `Indexes` method as seen through `reflect`: absent, or present with
an observed signature (`NumIn`, `NumOut`) and, when invoked, a return value
that either is not a slice or is a slice of index definitions. -/
inductive IndexesRet where
  | nonSlice : IndexesRet
  | slice (defs : List IndexDefinition) : IndexesRet
deriving DecidableEq, Repr

/-- Presence and shape of the `Indexes` method on the model's pointer
receiver. -/
inductive IndexesMethod where
  | absent : IndexesMethod
  | withSig (numIn numOut : Nat) (r : IndexesRet) : IndexesMethod
deriving DecidableEq, Repr

/-- A model argument as `AutoMigrateModel` and `ExtractRequiredExtensions`
observe it: whether the indirected base type is a struct, its top-level
fields, its `Indexes` method, and the custom table name when the model (or
its pointer type) implements `schema.Tabler`. -/
structure GoModel where
  baseIsStruct : Bool
  fields : List GoField
  indexes : IndexesMethod
  tabler : Option String
deriving DecidableEq, Repr

/-- Errors of `AutoMigrateModel`. -/
inductive MigrateErr where
  | nilModel : MigrateErr
  | notAStruct : MigrateErr
  | collect (e : CollectErr) : MigrateErr
deriving DecidableEq, Repr

/-- The observable outcome of `AutoMigrateModel`: a synthesis error, a plain
`db.AutoMigrate(model)` on the unmodified model, or `AutoMigrate` on the
cloned struct type (with the table-name override, when any). -/
inductive MigrateOutcome where
  | err (e : MigrateErr) : MigrateOutcome
  | original : MigrateOutcome
  | clone (fields : List GoField) (table : Option String) : MigrateOutcome
deriving DecidableEq, Repr

/-- Go `AutoMigrateModel` (`index_definition.go` lines 45-128): nil check,
struct check, `Indexes` lookup with graceful fallback on unexpected shape,
fragment collection, and the cloned field list with merged tags (unexported
fields dropped). -/
def AutoMigrateModel (model : Option GoModel) : MigrateOutcome :=
  match model with
  | none => .err .nilModel
  | some m =>
    if m.baseIsStruct = false then .err .notAStruct
    else
      match m.indexes with
      | .absent => .original
      | .withSig nIn nOut r =>
        if nIn ≠ 0 ∨ nOut ≠ 1 then .original
        else
          match r with
          | .nonSlice => .original
          | .slice [] => .original
          | .slice (d :: ds) =>
            match collectIndexTagsFromIndexesValue m.fields (d :: ds) with
            | .error e => .err (.collect e)
            | .ok tagsOf =>
              .clone
                (m.fields.filterMap (fun f =>
                  if f.exported then
                    some { name := f.name, exported := f.exported,
                           tag := mergeIndexIntoGormTag f.tag (tagsOf f.name) }
                  else none))
                m.tabler

/-- The deduplicating accumulation loop of `ExtractRequiredExtensions`
(lines 160-184): `seen` set plus ordered accumulator, skipping empty names. -/
def extLoop (seen acc : List String) : List String → List String
  | [] => acc
  | e :: es =>
    if e ≠ "" ∧ seen.contains e = false then extLoop (e :: seen) (acc ++ [e]) es
    else extLoop seen acc es

/-- Go `ExtractRequiredExtensions` (`index_definition.go` lines 132-187). -/
def ExtractRequiredExtensions (model : Option GoModel) : List String :=
  match model with
  | none => []
  | some m =>
    match m.indexes with
    | .absent => []
    | .withSig nIn nOut r =>
      if nIn ≠ 0 ∨ nOut ≠ 1 then []
      else
        match r with
        | .nonSlice => []
        | .slice [] => []
        | .slice (d :: ds) => extLoop [] [] ((d :: ds).flatMap (fun x => x.Extensions))

/-!
Section 4: helper lemmas.
-/

theorem listPre_refl_append : ∀ l m : List Char, listPre l (l ++ m) = true := by
  intro l m
  induction l with
  | nil => rfl
  | cons c cs ih => simp [listPre, ih]

theorem listPre_self_append (p x : String) : listPre p.data (p ++ x).data = true := by
  rw [String.data_append]; exact listPre_refl_append p.data x.data

theorem listPre_false_of_head : ∀ pd sd : List Char, pd.head? ≠ sd.head? → pd ≠ [] →
    listPre pd sd = false := by
  intro pd sd hne hpd
  match pd, sd with
  | [], _ => exact absurd rfl hpd
  | a :: as, [] => rfl
  | a :: as, b :: bs =>
    simp only [List.head?_cons, ne_eq, Option.some.injEq] at hne
    simp [listPre, hne]

theorem head_data_append (q x : String) (c : Char) (h : q.data.head? = some c) :
    ((q ++ x).data).head? = some c := by
  rw [String.data_append]
  cases hq : q.data with
  | nil => rw [hq] at h; exact absurd h (by simp)
  | cons a l => rw [hq] at h; simp at h; simp [hq, h]

theorem listPre_ne_head_append (p q x : String) (cp cq : Char)
    (h1 : p.data.head? = some cp) (h2 : q.data.head? = some cq) (h3 : cp ≠ cq) :
    listPre p.data ((q ++ x).data) = false := by
  apply listPre_false_of_head
  · rw [h1, head_data_append q x cq h2]; simp [h3]
  · intro h; rw [h] at h1; exact absurd h1 (by simp)

theorem listPre_ne_head (p s : String) (cp cs : Char)
    (h1 : p.data.head? = some cp) (h2 : s.data.head? = some cs) (h3 : cp ≠ cs) :
    listPre p.data s.data = false := by
  apply listPre_false_of_head
  · rw [h1, h2]; simp [h3]
  · intro h; rw [h] at h1; exact absurd h1 (by simp)

theorem listPre_self (l : List Char) : listPre l l = true := by
  have h := listPre_refl_append l []
  rwa [List.append_nil] at h

theorem ne_of_listPre_false (p s : String) (h : listPre p.data s.data = false) : s ≠ p := by
  intro he
  rw [he, listPre_self] at h
  exact absurd h (by simp)

theorem mem_ite_singleton {α : Type} {P : Prop} [Decidable P] (x p : α) :
    (p ∈ if P then [x] else []) ↔ P ∧ p = x := by
  split_ifs with h <;> simp [h]

/-- The `sort:` part of a column's fragment, when the trimmed sort direction
is non-empty. -/
def sortPart (c : Col) : String :=
  if trimSpace c.Nulls ≠ "" then
    "sort:" ++ trimSpace c.SortVal ++ " nulls " ++ trimSpace c.Nulls
  else "sort:" ++ trimSpace c.SortVal

theorem mem_colParts (d : IndexDefinition) (j : Nat) (c : Col) (fname p : String) :
    p ∈ colParts d j c fname ↔
      p = "index:" ++ d.Name ∨ p = "priority:" ++ toString (j + 1)
      ∨ (trimSpace c.SortVal ≠ "" ∧ p = sortPart c)
      ∨ (j = 0 ∧ d.Unique = true ∧ p = "unique")
      ∨ (j = 0 ∧ trimSpace d.Where ≠ "" ∧ p = "where:" ++ trimSpace d.Where)
      ∨ (j = 0 ∧ trimSpace d.Typ ≠ "" ∧ p = "type:" ++ trimSpace d.Typ)
      ∨ (trimSpace c.OpClass ≠ "" ∧
          p = "expression:" ++ toSnakeCase fname ++ " " ++ trimSpace c.OpClass) := by
  unfold colParts sortPart
  simp only [List.mem_append, List.mem_cons, List.mem_singleton, List.not_mem_nil,
    mem_ite_singleton, or_false, false_or]
  simp only [and_assoc, or_assoc]

theorem str_ne_of_head (a b : String) (ca cb : Char)
    (h1 : a.data.head? = some ca) (h2 : b.data.head? = some cb) (hne : ca ≠ cb) : a ≠ b := by
  intro he
  rw [he, h2] at h1
  exact hne (Option.some.inj h1).symm

theorem head_sortPart (c : Col) : (sortPart c).data.head? = some 's' := by
  unfold sortPart
  split_ifs
  · exact head_data_append _ _ _ (head_data_append _ _ _ (head_data_append _ _ _ rfl))
  · exact head_data_append _ _ _ rfl

theorem not_listPre_of_heads (pre s : String) (cp cs : Char)
    (h1 : pre.data.head? = some cp) (h2 : s.data.head? = some cs) (h3 : cp ≠ cs) :
    ¬ listPre pre.data s.data = true := by
  rw [listPre_ne_head pre s cp cs h1 h2 h3]
  simp

theorem head_expressionPart (a b : String) :
    ("expression:" ++ a ++ " " ++ b).data.head? = some 'e' :=
  head_data_append _ _ _ (head_data_append _ _ _ (head_data_append "expression:" a 'e' rfl))

instance {ε α : Type} [DecidableEq ε] [DecidableEq α] : DecidableEq (Except ε α) := fun x y =>
  match x, y with
  | .ok a, .ok b =>
    if h : a = b then isTrue (by subst h; rfl) else isFalse (fun he => h (Except.ok.inj he))
  | .error a, .error b =>
    if h : a = b then isTrue (by subst h; rfl) else isFalse (fun he => h (Except.error.inj he))
  | .ok _, .error _ => isFalse (fun he => Except.noConfusion he)
  | .error _, .ok _ => isFalse (fun he => Except.noConfusion he)

/-- A well-shaped selector (`func(*T) any`) whose single invocation on the
zero probe returns the address of top-level field `i`. -/
def selFor (i : Nat) : Selector :=
  { isFunc := true, numIn := 1, argIsPtr := true, numOut := 1, ret := .fieldAddr i }

/-- A well-shaped selector whose single invocation returns a non-nil pointer
matching no top-level field address of the probe (a local variable or a
nested sub-field). -/
def selElsewhere : Selector :=
  { isFunc := true, numIn := 1, argIsPtr := true, numOut := 1, ret := .otherAddr }

/-!
Claims C6, C2, C3 concern the per-column fragment assembly.
-/

/-- Claim C6: for every index declaration and every column at zero-based
position `j`, the emitted fragment parts contain the marker `priority:<j+1>`
and the marker `index:<Name>`, unconditionally for every column. -/
theorem claim_C6 (d : IndexDefinition) (j : Nat) (c : Col) (fname : String) :
    ("index:" ++ d.Name) ∈ colParts d j c fname
    ∧ ("priority:" ++ toString (j + 1)) ∈ colParts d j c fname := by
  constructor <;> rw [mem_colParts]
  · exact Or.inl rfl
  · exact Or.inr (Or.inl rfl)

/-- Concrete data for the counterexample to claim C2 as stated: an index
declaration whose `Where` and `Type` consist of a single space (non-empty
strings). -/
def cexC2col : Col := ⟨selFor 0, "", "", ""⟩

/-- The counterexample declaration for claim C2: `Where = " "`,
`Type = " "`. -/
def cexC2def : IndexDefinition :=
  { Name := "i1", Columns := [cexC2col], Unique := false, Where := " ", Typ := " ",
    Extensions := [] }

/-- The field list of the model used in the C2/C3 counterexamples. -/
def cexFields : List GoField := [⟨"A", true, ""⟩]

/-- Counterexample to claim C2 as stated: with `Where = " "` and
`Type = " "` — both non-empty — the fragment of the column at position 0
contains no `where:` marker and no `type:` marker at all (the source trims
the strings before testing emptiness), so "the column at position 0 contains
the marker `where:<predicate>` when Where is non-empty" fails. -/
theorem claim_C2_cex :
    cexC2def.Where ≠ "" ∧ cexC2def.Typ ≠ ""
    ∧ colParts cexC2def 0 cexC2col "A" = ["index:i1", "priority:1"]
    ∧ (colParts cexC2def 0 cexC2col "A").all
        (fun p => !(listPre "where:".data p.data) && !(listPre "type:".data p.data)) = true
    ∧ collectDefs cexFields [cexC2def] = .ok [("A", "index:i1,priority:1")] := by
  decide

/-- Claim C2 (amended: the `where`/`type` markers are governed by the
white-space-trimmed `Where`/`Type` strings, and carry the trimmed text):
the fragment of the column at position 0 — and of no other column —
contains the marker `unique` exactly when `Unique` is true, a `where:`
marker exactly when `Where` trims non-empty (namely `where:<trimmed Where>`),
and a `type:` marker exactly when `Type` trims non-empty (namely
`type:<trimmed Type>`). -/
theorem claim_C2 (d : IndexDefinition) (j : Nat) (c : Col) (fname : String) :
    (("unique" ∈ colParts d j c fname) ↔ (j = 0 ∧ d.Unique = true))
    ∧ ((∃ p ∈ colParts d j c fname, listPre "where:".data p.data = true) ↔
        (j = 0 ∧ trimSpace d.Where ≠ ""))
    ∧ ((j = 0 ∧ trimSpace d.Where ≠ "") →
        ("where:" ++ trimSpace d.Where) ∈ colParts d j c fname)
    ∧ ((∃ p ∈ colParts d j c fname, listPre "type:".data p.data = true) ↔
        (j = 0 ∧ trimSpace d.Typ ≠ ""))
    ∧ ((j = 0 ∧ trimSpace d.Typ ≠ "") →
        ("type:" ++ trimSpace d.Typ) ∈ colParts d j c fname) := by
  refine ⟨⟨?_, ?_⟩, ⟨?_, ?_⟩, ?_, ⟨?_, ?_⟩, ?_⟩
  · intro h
    rw [mem_colParts] at h
    rcases h with h | h | ⟨_, h⟩ | ⟨h0, hu, _⟩ | ⟨_, _, h⟩ | ⟨_, _, h⟩ | ⟨_, h⟩
    · exact absurd h (str_ne_of_head "unique" ("index:" ++ d.Name) 'u' 'i' rfl
        (head_data_append "index:" d.Name 'i' rfl) (by decide))
    · exact absurd h (str_ne_of_head "unique" ("priority:" ++ toString (j + 1)) 'u' 'p' rfl
        (head_data_append "priority:" (toString (j + 1)) 'p' rfl) (by decide))
    · exact absurd h (str_ne_of_head "unique" (sortPart c) 'u' 's' rfl
        (head_sortPart c) (by decide))
    · exact ⟨h0, hu⟩
    · exact absurd h (str_ne_of_head "unique" ("where:" ++ trimSpace d.Where) 'u' 'w' rfl
        (head_data_append "where:" (trimSpace d.Where) 'w' rfl) (by decide))
    · exact absurd h (str_ne_of_head "unique" ("type:" ++ trimSpace d.Typ) 'u' 't' rfl
        (head_data_append "type:" (trimSpace d.Typ) 't' rfl) (by decide))
    · exact absurd h (str_ne_of_head "unique"
        ("expression:" ++ toSnakeCase fname ++ " " ++ trimSpace c.OpClass) 'u' 'e' rfl
        (head_expressionPart (toSnakeCase fname) (trimSpace c.OpClass)) (by decide))
  · intro ⟨h0, hu⟩
    rw [mem_colParts]
    exact Or.inr (Or.inr (Or.inr (Or.inl ⟨h0, hu, rfl⟩)))
  · intro ⟨p, hp, hpre⟩
    rw [mem_colParts] at hp
    rcases hp with h | h | ⟨_, h⟩ | ⟨_, _, h⟩ | ⟨h0, hw, _⟩ | ⟨_, _, h⟩ | ⟨_, h⟩
    · exact absurd (h ▸ hpre) (not_listPre_of_heads "where:" ("index:" ++ d.Name) 'w' 'i' rfl
        (head_data_append "index:" d.Name 'i' rfl) (by decide))
    · exact absurd (h ▸ hpre) (not_listPre_of_heads "where:" ("priority:" ++ toString (j + 1))
        'w' 'p' rfl (head_data_append "priority:" (toString (j + 1)) 'p' rfl) (by decide))
    · exact absurd (h ▸ hpre) (not_listPre_of_heads "where:" (sortPart c) 'w' 's' rfl
        (head_sortPart c) (by decide))
    · exact absurd (h ▸ hpre) (by decide)
    · exact ⟨h0, hw⟩
    · exact absurd (h ▸ hpre) (not_listPre_of_heads "where:" ("type:" ++ trimSpace d.Typ)
        'w' 't' rfl (head_data_append "type:" (trimSpace d.Typ) 't' rfl) (by decide))
    · exact absurd (h ▸ hpre) (not_listPre_of_heads "where:"
        ("expression:" ++ toSnakeCase fname ++ " " ++ trimSpace c.OpClass) 'w' 'e' rfl
        (head_expressionPart (toSnakeCase fname) (trimSpace c.OpClass)) (by decide))
  · intro ⟨h0, hw⟩
    exact ⟨"where:" ++ trimSpace d.Where,
      by rw [mem_colParts]; exact Or.inr (Or.inr (Or.inr (Or.inr (Or.inl ⟨h0, hw, rfl⟩)))),
      listPre_self_append _ _⟩
  · intro h
    rw [mem_colParts]
    exact Or.inr (Or.inr (Or.inr (Or.inr (Or.inl ⟨h.1, h.2, rfl⟩))))
  · intro ⟨p, hp, hpre⟩
    rw [mem_colParts] at hp
    rcases hp with h | h | ⟨_, h⟩ | ⟨_, _, h⟩ | ⟨_, _, h⟩ | ⟨h0, ht, _⟩ | ⟨_, h⟩
    · exact absurd (h ▸ hpre) (not_listPre_of_heads "type:" ("index:" ++ d.Name) 't' 'i' rfl
        (head_data_append "index:" d.Name 'i' rfl) (by decide))
    · exact absurd (h ▸ hpre) (not_listPre_of_heads "type:" ("priority:" ++ toString (j + 1))
        't' 'p' rfl (head_data_append "priority:" (toString (j + 1)) 'p' rfl) (by decide))
    · exact absurd (h ▸ hpre) (not_listPre_of_heads "type:" (sortPart c) 't' 's' rfl
        (head_sortPart c) (by decide))
    · exact absurd (h ▸ hpre) (by decide)
    · exact absurd (h ▸ hpre) (not_listPre_of_heads "type:" ("where:" ++ trimSpace d.Where)
        't' 'w' rfl (head_data_append "where:" (trimSpace d.Where) 'w' rfl) (by decide))
    · exact ⟨h0, ht⟩
    · exact absurd (h ▸ hpre) (not_listPre_of_heads "type:"
        ("expression:" ++ toSnakeCase fname ++ " " ++ trimSpace c.OpClass) 't' 'e' rfl
        (head_expressionPart (toSnakeCase fname) (trimSpace c.OpClass)) (by decide))
  · intro ⟨h0, ht⟩
    exact ⟨"type:" ++ trimSpace d.Typ,
      by rw [mem_colParts]; exact Or.inr (Or.inr (Or.inr (Or.inr (Or.inr (Or.inl ⟨h0, ht, rfl⟩))))),
      listPre_self_append _ _⟩
  · intro h
    rw [mem_colParts]
    exact Or.inr (Or.inr (Or.inr (Or.inr (Or.inr (Or.inl ⟨h.1, h.2, rfl⟩)))))

/-- Witness for claim C2 at a concrete declaration. -/
theorem claim_C2_witness :
    ("where:" ++ trimSpace " deleted_at IS NULL ") ∈
      colParts ⟨"i2", [], true, " deleted_at IS NULL ", "", []⟩ 0 ⟨selFor 0, "", "", ""⟩ "A" :=
  (claim_C2 ⟨"i2", [], true, " deleted_at IS NULL ", "", []⟩ 0 ⟨selFor 0, "", "", ""⟩ "A").2.2.1
    ⟨rfl, by decide⟩

/-- Concrete data for the counterexample to claim C3 as stated: an operator
class consisting of a single space (a non-empty string). -/
def cexC3col : Col := ⟨selFor 0, "", "", " "⟩

/-- The counterexample declaration for claim C3. -/
def cexC3def : IndexDefinition :=
  { Name := "i1", Columns := [cexC3col], Unique := false, Where := "", Typ := "",
    Extensions := [] }

/-- Counterexample to claim C3 as stated: with `OperatorClass = " "` —
non-empty — the emitted fragment contains no expression marker at all (the
source trims the operator class before testing emptiness). -/
theorem claim_C3_cex :
    cexC3col.OpClass ≠ ""
    ∧ colParts cexC3def 0 cexC3col "A" = ["index:i1", "priority:1"]
    ∧ (colParts cexC3def 0 cexC3col "A").all
        (fun p => !(listPre "expression:".data p.data)) = true
    ∧ collectDefs cexFields [cexC3def] = .ok [("A", "index:i1,priority:1")] := by
  decide

/-- Claim C3 (amended: the expression marker is governed by the
white-space-trimmed `OperatorClass` and carries the trimmed text): at any
position, the fragment contains an expression marker exactly when the
trimmed operator class is non-empty, and that marker is
`expression:<snake-cased field name> <trimmed operator class>`; columns
whose operator class trims empty emit no expression marker. -/
theorem claim_C3 (d : IndexDefinition) (j : Nat) (c : Col) (fname : String) :
    ((∃ p ∈ colParts d j c fname, listPre "expression:".data p.data = true) ↔
        trimSpace c.OpClass ≠ "")
    ∧ (trimSpace c.OpClass ≠ "" →
        ("expression:" ++ toSnakeCase fname ++ " " ++ trimSpace c.OpClass)
          ∈ colParts d j c fname) := by
  refine ⟨⟨?_, ?_⟩, ?_⟩
  · intro ⟨p, hp, hpre⟩
    rw [mem_colParts] at hp
    rcases hp with h | h | ⟨_, h⟩ | ⟨_, _, h⟩ | ⟨_, _, h⟩ | ⟨_, _, h⟩ | ⟨ho, _⟩
    · exact absurd (h ▸ hpre) (not_listPre_of_heads "expression:" ("index:" ++ d.Name)
        'e' 'i' rfl (head_data_append "index:" d.Name 'i' rfl) (by decide))
    · exact absurd (h ▸ hpre) (not_listPre_of_heads "expression:"
        ("priority:" ++ toString (j + 1)) 'e' 'p' rfl
        (head_data_append "priority:" (toString (j + 1)) 'p' rfl) (by decide))
    · exact absurd (h ▸ hpre) (not_listPre_of_heads "expression:" (sortPart c) 'e' 's' rfl
        (head_sortPart c) (by decide))
    · exact absurd (h ▸ hpre) (by decide)
    · exact absurd (h ▸ hpre) (not_listPre_of_heads "expression:"
        ("where:" ++ trimSpace d.Where) 'e' 'w' rfl
        (head_data_append "where:" (trimSpace d.Where) 'w' rfl) (by decide))
    · exact absurd (h ▸ hpre) (not_listPre_of_heads "expression:"
        ("type:" ++ trimSpace d.Typ) 'e' 't' rfl
        (head_data_append "type:" (trimSpace d.Typ) 't' rfl) (by decide))
    · exact ho
  · intro ho
    exact ⟨"expression:" ++ toSnakeCase fname ++ " " ++ trimSpace c.OpClass,
      by rw [mem_colParts]; exact Or.inr (Or.inr (Or.inr (Or.inr (Or.inr (Or.inr ⟨ho, rfl⟩))))),
      listPre_self_append _ _⟩
  · intro ho
    rw [mem_colParts]
    exact Or.inr (Or.inr (Or.inr (Or.inr (Or.inr (Or.inr ⟨ho, rfl⟩)))))

/-- Witness for claim C3 at a concrete column. -/
theorem claim_C3_witness :
    ("expression:" ++ toSnakeCase "FileName" ++ " " ++ trimSpace "gin_trgm_ops") ∈
      colParts ⟨"i3", [], false, "", "gin", []⟩ 2 ⟨selFor 2, "", "", "gin_trgm_ops"⟩ "FileName" :=
  (claim_C3 ⟨"i3", [], false, "", "gin", []⟩ 2 ⟨selFor 2, "", "", "gin_trgm_ops"⟩ "FileName").2
    (by decide)

/-!
Claim C4: the naming normalizer.
-/

/-- An upper-case ASCII letter, as the source tests it. -/
def isUpperAZ (c : Char) : Prop := 'A' ≤ c ∧ c ≤ 'Z'

instance (c : Char) : Decidable (isUpperAZ c) := by unfold isUpperAZ; infer_instance

/-- A lower-case ASCII letter, as the source tests it. -/
def isLowerAZ (c : Char) : Prop := 'a' ≤ c ∧ c ≤ 'z'

instance (c : Char) : Decidable (isLowerAZ c) := by unfold isLowerAZ; infer_instance

/-- Lowercasing as the claim words it: an upper-case letter is lowercased
(code point + 32), any other character is kept. -/
def lowerChar (c : Char) : Char :=
  if isUpperAZ c then Char.ofNat (c.toNat + 32) else c

/-- The claim's boundary rule at position `i` of `runes`: the character is an
upper-case letter, it is not the first character, and the previous or the
following character is lower-case. -/
def snakeBoundary (runes : List Char) (i : Nat) : Prop :=
  isUpperAZ (runes.getD i ' ') ∧ i ≠ 0 ∧
    (isLowerAZ (runes.getD (i - 1) ' ') ∨
      (i + 1 < runes.length ∧ isLowerAZ (runes.getD (i + 1) ' ')))

instance (runes : List Char) (i : Nat) : Decidable (snakeBoundary runes i) := by
  unfold snakeBoundary; infer_instance

/-- The naming normalizer as the claim words it: per character, an
underscore exactly when the boundary rule holds, then the lowercased
character. -/
def snakeSpec (s : String) : String :=
  String.mk ((List.range s.data.length).flatMap (fun i =>
    (if snakeBoundary s.data i then ['_'] else []) ++ [lowerChar (s.data.getD i ' ')]))

/-- Claim C4: the naming normalizer inserts an underscore before an
upper-case letter exactly when it is not the first character and the
previous or the following character is lower-case, then lowercases; and the
six round-trip examples hold. -/
theorem claim_C4 :
    (∀ s : String, toSnakeCase s = snakeSpec s)
    ∧ toSnakeCase "FileName" = "file_name"
    ∧ toSnakeCase "TenantID" = "tenant_id"
    ∧ toSnakeCase "ID" = "id"
    ∧ toSnakeCase "HTTPServer" = "http_server"
    ∧ toSnakeCase "APIKey" = "api_key"
    ∧ toSnakeCase "" = "" := by
  refine ⟨?_, by decide, by decide, by decide, by decide, by decide, rfl⟩
  intro s
  by_cases hs : s = ""
  · subst hs; rfl
  · unfold toSnakeCase snakeSpec snakeBoundary lowerChar isUpperAZ isLowerAZ
    rw [if_neg hs]
    refine congrArg String.mk (congrArg _ (funext fun i => ?_))
    dsimp only
    by_cases hc1 : 'A' ≤ s.data.getD i ' ' ∧ s.data.getD i ' ' ≤ 'Z'
    · by_cases hi : i = 0
      · subst hi
        rw [if_pos hc1, if_neg (by omega : ¬(0 : Nat) > 0),
          if_neg (fun h : _ ∧ (0 : Nat) ≠ 0 ∧ _ => h.2.1 rfl), if_pos hc1]
      · by_cases hp : 'a' ≤ s.data.getD (i - 1) ' ' ∧ s.data.getD (i - 1) ' ' ≤ 'z'
          ∨ i + 1 < s.data.length ∧ 'a' ≤ s.data.getD (i + 1) ' ' ∧ s.data.getD (i + 1) ' ' ≤ 'z'
        · rw [if_pos hc1, if_pos (Nat.pos_of_ne_zero hi), if_pos hp,
            if_pos (show _ ∧ i ≠ 0 ∧ _ from ⟨hc1, hi, hp⟩), if_pos hc1]
        · rw [if_pos hc1, if_pos (Nat.pos_of_ne_zero hi), if_neg hp,
            if_neg (fun h : _ ∧ i ≠ 0 ∧ _ => hp h.2.2), if_pos hc1]
    · rw [if_neg hc1, if_neg (fun h : _ ∧ i ≠ 0 ∧ _ => hc1 h.1), if_neg hc1,
        List.nil_append]

/-!
Claims C1 (selector resolution), C8 (no-op passthrough), C10 (graceful
degradation on unexpected `Indexes` shapes).
-/

/-- Claim C1: a well-shaped selector that returns the address of a top-level
exported field of the fresh zero probe resolves to exactly that field's
name, with the selector invoked exactly once; a well-shaped selector whose
returned address matches no top-level exported field of the probe — a local
or unrelated variable, a nested sub-field, or the address of an unexported
top-level field (skipped by the `PkgPath` test at line 316) — fails with
`selectorNotATopLevelField`, again after exactly one invocation. -/
theorem claim_C1 (fields : List GoField) (sel : Selector) :
    (∀ (i : Nat) (h : i < fields.length), sel.ok → sel.ret = .fieldAddr i →
      (fields.get ⟨i, h⟩).exported = true →
      fieldNameFromSelectorValue fields sel = (.ok (fields.get ⟨i, h⟩).name, 1))
    ∧ (sel.ok → sel.ret = .otherAddr →
      fieldNameFromSelectorValue fields sel = (.error .selectorNotATopLevelField, 1))
    ∧ (∀ (i : Nat) (h : i < fields.length), sel.ok → sel.ret = .fieldAddr i →
      (fields.get ⟨i, h⟩).exported = false →
      fieldNameFromSelectorValue fields sel = (.error .selectorNotATopLevelField, 1)) := by
  refine ⟨?_, ?_, ?_⟩
  · intro i h hok hret hexp
    obtain ⟨h1, h2, h3, h4⟩ := hok
    unfold fieldNameFromSelectorValue matchTopLevelField
    rw [h1, h2, h3, h4, hret]
    simp only [List.get?_eq_get h]
    simp only [List.get_eq_getElem] at hexp
    simp [hexp]
  · intro hok hret
    obtain ⟨h1, h2, h3, h4⟩ := hok
    unfold fieldNameFromSelectorValue
    rw [h1, h2, h3, h4, hret]
    simp
  · intro i h hok hret hexp
    obtain ⟨h1, h2, h3, h4⟩ := hok
    unfold fieldNameFromSelectorValue matchTopLevelField
    rw [h1, h2, h3, h4, hret]
    simp only [List.get?_eq_get h]
    simp only [List.get_eq_getElem] at hexp
    simp [hexp]

/-- Witness for claim C1: a selector resolving an exported field, a selector
returning an unrelated address, and a selector returning the address of an
unexported top-level field. -/
theorem claim_C1_witness :
    fieldNameFromSelectorValue [⟨"TenantID", true, ""⟩] (selFor 0) = (.ok "TenantID", 1)
    ∧ fieldNameFromSelectorValue [⟨"TenantID", true, ""⟩] selElsewhere =
        (.error .selectorNotATopLevelField, 1)
    ∧ fieldNameFromSelectorValue [⟨"inner", false, ""⟩, ⟨"TenantID", true, ""⟩] (selFor 0) =
        (.error .selectorNotATopLevelField, 1) :=
  ⟨(claim_C1 [⟨"TenantID", true, ""⟩] (selFor 0)).1 0 (by decide) (by decide) rfl rfl,
   (claim_C1 [⟨"TenantID", true, ""⟩] selElsewhere).2.1 (by decide) rfl,
   (claim_C1 [⟨"inner", false, ""⟩, ⟨"TenantID", true, ""⟩] (selFor 0)).2.2 0 (by decide)
     (by decide) rfl rfl⟩

/-- Claim C8: a model with no `Indexes` method, or whose `Indexes` returns
an empty declaration list, is migrated as-is: no projection is built, no
error is returned. -/
theorem claim_C8 (fields : List GoField) (tabler : Option String) :
    AutoMigrateModel (some ⟨true, fields, .absent, tabler⟩) = .original
    ∧ ∀ nIn nOut : Nat,
        AutoMigrateModel (some ⟨true, fields, .withSig nIn nOut (.slice []), tabler⟩) =
          .original := by
  refine ⟨rfl, fun nIn nOut => ?_⟩
  simp only [AutoMigrateModel]
  split_ifs <;> simp_all

/-- Claim C10: an `Indexes` method with an unexpected shape — taking
arguments, not returning exactly one value, or returning a non-slice — is
silently ignored: `AutoMigrateModel` migrates the original model without
error, and `ExtractRequiredExtensions` returns the empty result. -/
theorem claim_C10 :
    (∀ (fields : List GoField) (tabler : Option String) (bs : Bool) (nIn nOut : Nat)
        (r : IndexesRet), (nIn ≠ 0 ∨ nOut ≠ 1) →
      AutoMigrateModel (some ⟨true, fields, .withSig nIn nOut r, tabler⟩) = .original
      ∧ ExtractRequiredExtensions (some ⟨bs, fields, .withSig nIn nOut r, tabler⟩) = [])
    ∧ (∀ (fields : List GoField) (tabler : Option String) (bs : Bool),
        AutoMigrateModel (some ⟨true, fields, .withSig 0 1 .nonSlice, tabler⟩) = .original
        ∧ ExtractRequiredExtensions (some ⟨bs, fields, .withSig 0 1 .nonSlice, tabler⟩) = []) := by
  constructor
  · intro fields tabler bs nIn nOut r hbad
    constructor
    · simp [AutoMigrateModel, hbad]
    · simp [ExtractRequiredExtensions, hbad]
  · intro fields tabler bs
    exact ⟨rfl, rfl⟩

/-- Witness for claim C10 at a concrete ill-shaped `Indexes` method. -/
theorem claim_C10_witness :
    AutoMigrateModel (some ⟨true, [], .withSig 1 1 .nonSlice, none⟩) = .original
    ∧ ExtractRequiredExtensions (some ⟨true, [], .withSig 1 1 .nonSlice, none⟩) = [] :=
  claim_C10.1 [] none true 1 1 .nonSlice (Or.inl (by decide))

/-!
Claim C5: extension aggregation keeps the first occurrence of each distinct
non-empty name, in order of first appearance.
-/

/-- First-occurrence deduplication as the spec words it: skip empty names,
keep each name at its first appearance, drop its later duplicates. -/
def firstOccurrences : List String → List String
  | [] => []
  | e :: es =>
    if e = "" then firstOccurrences es
    else e :: firstOccurrences (es.filter (fun x => x ≠ e))
termination_by l => l.length
decreasing_by
  all_goals simp_wf
  all_goals first
    | omega
    | exact Nat.lt_succ_of_le (List.length_filter_le _ _)

/-- The `seen`/accumulator loop, with the accumulator threaded out. -/
def extPure (seen : List String) : List String → List String
  | [] => []
  | e :: es =>
    if e ≠ "" ∧ seen.contains e = false then e :: extPure (e :: seen) es
    else extPure seen es

theorem extLoop_eq_extPure (l : List String) :
    ∀ seen acc, extLoop seen acc l = acc ++ extPure seen l := by
  induction l with
  | nil => intro seen acc; simp [extLoop, extPure]
  | cons e es ih =>
    intro seen acc
    unfold extLoop extPure
    by_cases h : e ≠ "" ∧ seen.contains e = false
    · rw [if_pos h, if_pos h, ih (e :: seen) (acc ++ [e])]
      simp
    · rw [if_neg h, if_neg h, ih seen acc]

theorem extPure_eq_firstOccurrences (l : List String) :
    ∀ seen, extPure seen l = firstOccurrences (l.filter (fun x => seen.contains x = false)) := by
  induction l with
  | nil => intro seen; simp [extPure, firstOccurrences]
  | cons e es ih =>
    intro seen
    rw [List.filter_cons]
    by_cases hseen : seen.contains e = false
    · rw [if_pos (by simpa using hseen)]
      by_cases he : e = ""
      · subst he
        unfold extPure
        rw [if_neg (by simp)]
        unfold firstOccurrences
        rw [if_pos rfl]
        exact ih seen
      · unfold extPure
        rw [if_pos ⟨he, hseen⟩]
        unfold firstOccurrences
        rw [if_neg he]
        rw [ih (e :: seen)]
        have hfil : es.filter (fun x => decide ((e :: seen).contains x = false)) =
            (es.filter (fun x => decide (seen.contains x = false))).filter
              (fun x => decide (x ≠ e)) := by
          rw [List.filter_filter]
          apply List.filter_congr
          intro x _
          by_cases hxe : x = e
          · subst hxe
            simp [List.contains_cons, hseen]
          · cases hc : seen.contains x <;> simp_all [List.contains_cons, eq_comm]
        rw [hfil]
    · rw [if_neg (by simpa using hseen)]
      unfold extPure
      rw [if_neg (fun hc => hseen hc.2)]
      exact ih seen

/-- `ExtractRequiredExtensions` on a model with a well-shaped `Indexes`
method returning a non-empty declaration list equals the spec-side
first-occurrence deduplication of the concatenated extension lists. -/
theorem extract_characterization (m : GoModel) (d : IndexDefinition)
    (defs : List IndexDefinition) (h : m.indexes = .withSig 0 1 (.slice (d :: defs))) :
    ExtractRequiredExtensions (some m) =
      firstOccurrences ((d :: defs).flatMap (fun x => x.Extensions)) := by
  simp only [ExtractRequiredExtensions, h]
  rw [if_neg (by simp)]
  rw [extLoop_eq_extPure _ [] [], extPure_eq_firstOccurrences _ []]
  rw [List.nil_append]
  congr 1
  apply List.filter_eq_self.mpr
  intro a _
  simp

/-- Claim C5: extension aggregation iterates declarations and their
`Extensions` in order, keeps only the first occurrence of each distinct
non-empty name (skipping empty strings) in order of first appearance; an
absent model, an absent `Indexes` method, or declarations with no
extensions give the empty result, never an error. -/
theorem claim_C5 :
    ExtractRequiredExtensions none = []
    ∧ (∀ (m : GoModel) (d : IndexDefinition) (defs : List IndexDefinition),
        m.indexes = .withSig 0 1 (.slice (d :: defs)) →
        ExtractRequiredExtensions (some m) =
          firstOccurrences ((d :: defs).flatMap (fun x => x.Extensions)))
    ∧ (∀ m : GoModel, m.indexes = .absent → ExtractRequiredExtensions (some m) = [])
    ∧ (∀ (m : GoModel) (d : IndexDefinition) (defs : List IndexDefinition),
        m.indexes = .withSig 0 1 (.slice (d :: defs)) →
        (∀ x ∈ d :: defs, x.Extensions = ([] : List String)) →
        ExtractRequiredExtensions (some m) = []) := by
  refine ⟨rfl, fun m d defs h => extract_characterization m d defs h, ?_, ?_⟩
  · intro m h
    simp only [ExtractRequiredExtensions, h]
  · intro m d defs h hempty
    rw [extract_characterization m d defs h]
    have : (d :: defs).flatMap (fun x => x.Extensions) = [] := by
      simp only [List.flatMap_eq_nil_iff]
      exact hempty
    rw [this]
    simp [firstOccurrences]

/-- Witness for claim C5: the same extension declared on two indexes appears
once, at the position of its first occurrence, and empty names are
skipped. -/
theorem claim_C5_witness :
    ExtractRequiredExtensions (some ⟨true, [],
      .withSig 0 1 (.slice [⟨"i1", [], false, "", "", ["pg_trgm", "", "btree_gin"]⟩,
        ⟨"i2", [], false, "", "", ["pg_trgm"]⟩]), none⟩) =
      firstOccurrences ["pg_trgm", "", "btree_gin", "pg_trgm"] :=
  claim_C5.2.1 _ ⟨"i1", [], false, "", "", ["pg_trgm", "", "btree_gin"]⟩
    [⟨"i2", [], false, "", "", ["pg_trgm"]⟩] rfl

/-!
Claim C9: error taxonomy and fail-fast propagation.
-/

/-- The first selector failure within one declaration's column list, in
column order, annotated as the source annotates it: index name and one-based
column position. -/
def firstSelFailureCols (fields : List GoField) (name : String) (j : Nat) :
    List Col → Option (String × Nat × SelErr)
  | [] => none
  | c :: cs =>
    match (fieldNameFromSelectorValue fields c.Sel).1 with
    | .error e => some (name, j + 1, e)
    | .ok _ => firstSelFailureCols fields name (j + 1) cs

/-- The first selector failure across the declarations, in iteration
order. -/
def firstSelFailure (fields : List GoField) :
    List IndexDefinition → Option (String × Nat × SelErr)
  | [] => none
  | d :: ds =>
    match firstSelFailureCols fields d.Name 0 d.Columns with
    | some x => some x
    | none => firstSelFailure fields ds

theorem collectCols_error_iff (fields : List GoField) (d : IndexDefinition)
    (cols : List Col) (n : String) (p : Nat) (e : SelErr) : ∀ j : Nat,
    (collectCols fields d j cols = .error (.colSelErr n p e)) ↔
      (firstSelFailureCols fields d.Name j cols = some (n, p, e)) := by
  induction cols with
  | nil => intro j; simp [collectCols, firstSelFailureCols]
  | cons c cs ih =>
    intro j
    unfold collectCols firstSelFailureCols
    cases hsel : (fieldNameFromSelectorValue fields c.Sel).1 with
    | error e' => simp
    | ok fname =>
      cases hrec : collectCols fields d (j + 1) cs with
      | error e2 =>
        cases e2 with
        | colSelErr n2 p2 e2' =>
          have hiff := ih (j + 1)
          rw [hrec] at hiff
          simpa using hiff
      | ok rest =>
        simp only []
        constructor
        · intro hc; exact absurd hc (by simp)
        · intro hc
          have hcc := (ih (j + 1)).mpr hc
          rw [hrec] at hcc
          exact absurd hcc (by simp)

theorem collectDefs_error_iff (fields : List GoField) (defs : List IndexDefinition)
    (n : String) (p : Nat) (e : SelErr) :
    (collectDefs fields defs = .error (.colSelErr n p e)) ↔
      (firstSelFailure fields defs = some (n, p, e)) := by
  induction defs with
  | nil => simp [collectDefs, firstSelFailure]
  | cons d ds ih =>
    unfold collectDefs firstSelFailure
    cases h1 : collectCols fields d 0 d.Columns with
    | error e1 =>
      cases e1 with
      | colSelErr n1 p1 e1' =>
        rw [(collectCols_error_iff fields d d.Columns n1 p1 e1' 0).mp h1]
        simp
    | ok ps =>
      have hnone : firstSelFailureCols fields d.Name 0 d.Columns = none := by
        cases hf : firstSelFailureCols fields d.Name 0 d.Columns with
        | none => rfl
        | some x =>
          obtain ⟨xn, xp, xe⟩ := x
          rw [← collectCols_error_iff fields d d.Columns xn xp xe 0] at hf
          rw [h1] at hf
          exact absurd hf (by simp)
      rw [hnone]
      cases h2 : collectDefs fields ds with
      | error e2 =>
        have hiff := ih
        rw [h2] at hiff
        simpa using hiff
      | ok qs =>
        have hiff := ih
        rw [h2] at hiff
        simpa using hiff

/-- Claim C9: a nil model fails with the nil-model error; a model whose
underlying type is not a struct fails with the not-a-struct error; and when
a column's selector fails, `AutoMigrateModel` returns the first error
encountered in iteration order, annotated with the offending index's name
and one-based column position — no partial projection is produced. -/
theorem claim_C9 :
    AutoMigrateModel none = .err .nilModel
    ∧ (∀ m : GoModel, m.baseIsStruct = false → AutoMigrateModel (some m) = .err .notAStruct)
    ∧ (∀ (m : GoModel) (defs : List IndexDefinition) (n : String) (p : Nat) (e : SelErr),
        m.baseIsStruct = true →
        m.indexes = .withSig 0 1 (.slice defs) →
        firstSelFailure m.fields defs = some (n, p, e) →
        AutoMigrateModel (some m) = .err (.collect (.colSelErr n p e))) := by
  refine ⟨rfl, ?_, ?_⟩
  · intro m hb
    simp only [AutoMigrateModel, hb]
    rfl
  · intro m defs n p e hb hidx hfail
    cases defs with
    | nil => exact absurd hfail (by simp [firstSelFailure])
    | cons d ds =>
      simp only [AutoMigrateModel, hb, hidx]
      rw [if_neg (by simp)]
      rw [if_neg (by simp)]
      unfold collectIndexTagsFromIndexesValue
      rw [(collectDefs_error_iff m.fields (d :: ds) n p e).mpr hfail]
      rfl

/-- The model used in the C9 witness: one declaration whose only column's
selector returns an address that is not a top-level field of the probe. -/
def c9model : GoModel :=
  ⟨true, [⟨"A", true, ""⟩],
    .withSig 0 1 (.slice [⟨"i1", [⟨selElsewhere, "", "", ""⟩], false, "", "", []⟩]), none⟩

/-- Witness for claim C9 at a concrete failing model. -/
theorem claim_C9_witness :
    AutoMigrateModel (some c9model) =
      .err (.collect (.colSelErr "i1" 1 .selectorNotATopLevelField)) :=
  claim_C9.2.2 c9model [⟨"i1", [⟨selElsewhere, "", "", ""⟩], false, "", "", []⟩]
    "i1" 1 .selectorNotATopLevelField rfl rfl (by decide)

/-!
Claim C7: merge/strip/re-serialize idempotence.

The counterexample: a synthesized fragment whose `where:` predicate contains
a `;` splits into two pieces on re-parsing, so the second synthesis keeps
the spurious piece `b` and the merged tag grows — synthesis twice is not
byte-identical.
-/

/-- Counterexample to claim C7 as stated: merging the fragment
`index:i,where:a;b` (a legal fragment for a declaration with
`Where = "a;b"`) into the empty tag and then re-merging the same fragment
into the result does not reproduce the result: the `;` inside the fragment
makes the strip step retain a spurious piece. -/
theorem claim_C7_cex :
    mergeIndexIntoGormTag "" ["index:i,where:a;b"] = "gorm:\"index:i,where:a;b\""
    ∧ mergeIndexIntoGormTag (mergeIndexIntoGormTag "" ["index:i,where:a;b"])
        ["index:i,where:a;b"] = "gorm:\"b;index:i,where:a;b\""
    ∧ mergeIndexIntoGormTag (mergeIndexIntoGormTag "" ["index:i,where:a;b"])
        ["index:i,where:a;b"] ≠ mergeIndexIntoGormTag "" ["index:i,where:a;b"] := by
  refine ⟨by decide, by decide, by decide⟩

/-!
Supporting lemmas for the amended claim C7, part 1: strings, split, join,
trim.
-/

theorem strEta (s : String) : String.mk s.data = s := by
  cases s
  rfl

theorem str_ne_empty_of_data (s : String) (h : s.data ≠ []) : s ≠ "" := by
  intro he
  rw [he] at h
  exact h rfl

theorem data_mk (l : List Char) : (String.mk l).data = l := rfl

theorem listPre_iff_append (a : List Char) : ∀ b, listPre a b = true ↔ ∃ t, b = a ++ t := by
  induction a with
  | nil => intro b; simp [listPre]
  | cons c cs ih =>
    intro b
    cases b with
    | nil => simp [listPre]
    | cons d ds =>
      rw [listPre]
      simp only [Bool.and_eq_true, beq_iff_eq, ih ds]
      constructor
      · intro ⟨hcd, t, ht⟩
        exact ⟨t, by rw [ht, hcd]; rfl⟩
      · intro ⟨t, ht⟩
        obtain ⟨h1, h2⟩ := List.cons.inj ht
        exact ⟨h1.symm, t, h2⟩

theorem joinStr_data_cons (sep : String) (p q : String) (rest : List String) :
    (joinStr sep (p :: q :: rest)).data = p.data ++ sep.data ++ (joinStr sep (q :: rest)).data := by
  rw [joinStr, String.data_append, String.data_append]

theorem splitChar_ne_nil (sep : Char) : ∀ l : List Char, splitChar sep l ≠ [] := by
  intro l
  induction l with
  | nil => simp [splitChar]
  | cons c cs ih =>
    rw [splitChar]
    cases h : splitChar sep cs with
    | nil => exact absurd h ih
    | cons cur acc => split_ifs <;> simp

theorem splitChar_cons_sep (sep : Char) (b : List Char) :
    splitChar sep (sep :: b) = [] :: splitChar sep b := by
  rw [splitChar]
  cases h : splitChar sep b with
  | nil => exact absurd h (splitChar_ne_nil sep b)
  | cons cur acc => simp

theorem splitChar_cons_ne (sep c : Char) (l cur : List Char) (acc : List (List Char))
    (hc : c ≠ sep) (h : splitChar sep l = cur :: acc) :
    splitChar sep (c :: l) = (c :: cur) :: acc := by
  rw [splitChar, h]
  simp [hc]

theorem splitChar_append (sep : Char) : ∀ a b : List Char,
    splitChar sep (a ++ sep :: b) = splitChar sep a ++ splitChar sep b := by
  intro a b
  induction a with
  | nil =>
    rw [List.nil_append, splitChar_cons_sep]
    rfl
  | cons c cs ih =>
    by_cases hc : c = sep
    · subst hc
      rw [List.cons_append, splitChar_cons_sep, splitChar_cons_sep, ih]
      rfl
    · cases h : splitChar sep cs with
      | nil => exact absurd h (splitChar_ne_nil sep cs)
      | cons cur acc =>
        rw [List.cons_append,
          splitChar_cons_ne sep c (cs ++ sep :: b) cur (acc ++ splitChar sep b) hc
            (by rw [ih, h]; rfl),
          splitChar_cons_ne sep c cs cur acc hc h]
        rfl

theorem splitChar_no_sep (sep : Char) : ∀ l : List Char, sep ∉ l → splitChar sep l = [l] := by
  intro l
  induction l with
  | nil => intro _; rfl
  | cons c cs ih =>
    intro h
    have hc : c ≠ sep := fun hce => h (hce ▸ List.mem_cons_self c cs)
    have hrest := ih (fun hm => h (List.mem_cons_of_mem c hm))
    rw [splitChar_cons_ne sep c cs cs [] hc hrest]

theorem mem_splitChar_no_sep (sep : Char) : ∀ (l q : List Char),
    q ∈ splitChar sep l → sep ∉ q := by
  intro l
  induction l with
  | nil =>
    intro q hq
    rw [splitChar, List.mem_singleton] at hq
    subst hq
    simp
  | cons c cs ih =>
    intro q hq
    by_cases hc : c = sep
    · subst hc
      rw [splitChar_cons_sep] at hq
      rcases List.mem_cons.mp hq with h1 | h1
      · subst h1; simp
      · exact ih q h1
    · cases h : splitChar sep cs with
      | nil => exact absurd h (splitChar_ne_nil sep cs)
      | cons cur acc =>
        rw [splitChar_cons_ne sep c cs cur acc hc h] at hq
        rcases List.mem_cons.mp hq with h1 | h1
        · subst h1
          intro hmem
          rcases List.mem_cons.mp hmem with h2 | h2
          · exact hc h2.symm
          · exact ih cur (h ▸ List.mem_cons_self cur acc) h2
        · exact ih q (h ▸ List.mem_cons_of_mem cur h1)

theorem mem_splitChar_subset (sep : Char) : ∀ (l q : List Char),
    q ∈ splitChar sep l → ∀ c ∈ q, c ∈ l := by
  intro l
  induction l with
  | nil =>
    intro q hq c hc
    rw [splitChar, List.mem_singleton] at hq
    subst hq
    exact absurd hc (by simp)
  | cons a as ih =>
    intro q hq c hc
    by_cases ha : a = sep
    · subst ha
      rw [splitChar_cons_sep] at hq
      rcases List.mem_cons.mp hq with h1 | h1
      · subst h1; exact absurd hc (by simp)
      · exact List.mem_cons_of_mem a (ih q h1 c hc)
    · cases h : splitChar sep as with
      | nil => exact absurd h (splitChar_ne_nil sep as)
      | cons cur acc =>
        rw [splitChar_cons_ne sep a as cur acc ha h] at hq
        rcases List.mem_cons.mp hq with h1 | h1
        · subst h1
          rcases List.mem_cons.mp hc with h2 | h2
          · exact h2 ▸ List.mem_cons_self a as
          · exact List.mem_cons_of_mem a
              (ih cur (h ▸ List.mem_cons_self cur acc) c h2)
        · exact List.mem_cons_of_mem a (ih q (h ▸ List.mem_cons_of_mem cur h1) c hc)

theorem strSplitSemi_append (a b : String) :
    strSplitSemi (a ++ ";" ++ b) = strSplitSemi a ++ strSplitSemi b := by
  unfold strSplitSemi
  rw [String.data_append, String.data_append]
  have : a.data ++ (";" : String).data ++ b.data = a.data ++ ';' :: b.data := by
    rw [List.append_assoc]
    rfl
  rw [this, splitChar_append, List.map_append]

theorem strSplitSemi_joinStr : ∀ pieces : List String, pieces ≠ [] →
    (∀ p ∈ pieces, ';' ∉ p.data) → strSplitSemi (joinStr ";" pieces) = pieces := by
  intro pieces
  induction pieces with
  | nil => intro h; exact absurd rfl h
  | cons p ps ih =>
    intro _ hs
    cases ps with
    | nil =>
      rw [joinStr]
      unfold strSplitSemi
      rw [splitChar_no_sep ';' p.data (hs p (by simp))]
      simp [strEta]
    | cons q rest =>
      have hjoin : (p ++ ";" ++ joinStr ";" (q :: rest) : String) = joinStr ";" (p :: q :: rest) := by
        rw [joinStr]
      rw [← hjoin, strSplitSemi_append]
      rw [ih (by simp) (fun x hx => hs x (List.mem_cons_of_mem p hx))]
      unfold strSplitSemi
      rw [splitChar_no_sep ';' p.data (hs p (by simp))]
      simp [strEta]

/-!
Supporting lemmas for the amended claim C7, part 2: trimming and the strip
step.
-/

theorem dropWhile_of_head_false {p : Char → Bool} : ∀ {l : List Char},
    (∀ c ∈ l.head?, p c = false) → l.dropWhile p = l := by
  intro l h
  cases l with
  | nil => rfl
  | cons c cs =>
    rw [List.dropWhile_cons, h c (by simp)]
    simp

theorem dropWhile_self (p : Char → Bool) (l : List Char) :
    (l.dropWhile p).dropWhile p = l.dropWhile p := by
  induction l with
  | nil => rfl
  | cons c cs ih =>
    rw [List.dropWhile_cons]
    by_cases h : p c = true
    · rw [if_pos h]; exact ih
    · rw [if_neg h, List.dropWhile_cons, if_neg h]

theorem dropTrail_self (p : Char → Bool) (l : List Char) :
    dropTrail p (dropTrail p l) = dropTrail p l := by
  unfold dropTrail
  rw [List.reverse_reverse, dropWhile_self]

theorem dropTrail_sublist_chars (p : Char → Bool) (l : List Char) :
    ∀ c ∈ dropTrail p l, c ∈ l := by
  intro c hc
  unfold dropTrail at hc
  rw [List.mem_reverse] at hc
  have := List.dropWhile_sublist (l := l.reverse) (p := p)
  have hm := this.subset hc
  rwa [List.mem_reverse] at hm

theorem trimList_chars (l : List Char) : ∀ c ∈ trimList l, c ∈ l := by
  intro c hc
  unfold trimList at hc
  have h1 := dropTrail_sublist_chars goIsSpace (l.dropWhile goIsSpace) c hc
  exact (List.dropWhile_sublist (l := l) (p := goIsSpace)).subset h1

theorem dropTrail_prefix (p : Char → Bool) (l : List Char) :
    ∃ t, l = dropTrail p l ++ t := by
  unfold dropTrail
  obtain ⟨t, ht⟩ := (List.dropWhile_suffix (l := l.reverse) (p := p))
  refine ⟨t.reverse, ?_⟩
  have := congrArg List.reverse ht
  rw [List.reverse_append, List.reverse_reverse] at this
  exact this.symm

theorem head_dropTrail (p : Char → Bool) (l : List Char) :
    ∀ c ∈ (dropTrail p l).head?, c ∈ l.head? := by
  intro c hc
  obtain ⟨t, ht⟩ := dropTrail_prefix p l
  cases hd : dropTrail p l with
  | nil => rw [hd] at hc; exact absurd hc (by simp)
  | cons a as =>
    rw [hd] at hc ht
    simp only [List.head?_cons, Option.mem_def, Option.some.injEq] at hc
    rw [ht, List.cons_append]
    simp [hc]

theorem head_dropWhile_false (p : Char → Bool) : ∀ l : List Char,
    ∀ c ∈ (l.dropWhile p).head?, p c = false := by
  intro l
  induction l with
  | nil => intro c hc; exact absurd hc (by simp)
  | cons a as ih =>
    intro c hc
    rw [List.dropWhile_cons] at hc
    by_cases h : p a = true
    · rw [if_pos h] at hc; exact ih c hc
    · rw [if_neg h] at hc
      simp only [List.head?_cons, Option.mem_def, Option.some.injEq] at hc
      subst hc
      simpa using h

theorem trimList_self (l : List Char) : trimList (trimList l) = trimList l := by
  unfold trimList
  have h1 : (dropTrail goIsSpace (l.dropWhile goIsSpace)).dropWhile goIsSpace =
      dropTrail goIsSpace (l.dropWhile goIsSpace) := by
    apply dropWhile_of_head_false
    intro c hc
    exact head_dropWhile_false goIsSpace l c
      (head_dropTrail goIsSpace (l.dropWhile goIsSpace) c hc)
  rw [h1, dropTrail_self]

theorem trim_keeps_pre (pre : List Char) (l : List Char)
    (hp : listPre pre l = true) (hne : pre ≠ [])
    (hns : ∀ c ∈ pre, goIsSpace c = false) : listPre pre (trimList l) = true := by
  obtain ⟨t, ht⟩ := (listPre_iff_append pre l).mp hp
  subst ht
  unfold trimList
  have hdw : (pre ++ t).dropWhile goIsSpace = pre ++ t := by
    apply dropWhile_of_head_false
    intro c hc
    cases pre with
    | nil => exact absurd rfl hne
    | cons a as =>
      rw [List.cons_append] at hc
      simp only [List.head?_cons, Option.mem_def, Option.some.injEq] at hc
      rw [← hc]
      exact hns a (by simp)
  rw [hdw]
  unfold dropTrail
  rw [List.reverse_append, List.dropWhile_append]
  by_cases hemp : (List.dropWhile goIsSpace t.reverse).isEmpty = true
  · rw [if_pos hemp]
    have hpre : pre.reverse.dropWhile goIsSpace = pre.reverse := by
      apply dropWhile_of_head_false
      intro c hc
      have hcm : c ∈ pre.reverse := by
        cases hr : pre.reverse with
        | nil => rw [hr] at hc; exact absurd hc (by simp)
        | cons b bs =>
          rw [hr] at hc
          simp only [List.head?_cons, Option.mem_def, Option.some.injEq] at hc
          rw [← hc]
          simp
      exact hns c (List.mem_reverse.mp hcm)
    rw [hpre, List.reverse_reverse]
    exact listPre_self pre
  · rw [if_neg hemp, List.reverse_append, List.reverse_reverse]
    exact listPre_refl_append pre (List.dropWhile goIsSpace t.reverse).reverse

theorem trimSpace_self (s : String) : trimSpace (trimSpace s) = trimSpace s := by
  unfold trimSpace
  rw [data_mk, trimList_self]

theorem trimSpace_chars (s : String) : ∀ c ∈ (trimSpace s).data, c ∈ s.data := by
  intro c hc
  rw [trimSpace, data_mk] at hc
  exact trimList_chars s.data c hc

theorem trimSpace_keeps_pre (pre s : String)
    (hp : listPre pre.data s.data = true) (hne : pre.data ≠ [])
    (hns : ∀ c ∈ pre.data, goIsSpace c = false) :
    listPre pre.data (trimSpace s).data = true := by
  rw [trimSpace, data_mk]
  exact trim_keeps_pre pre.data s.data hp hne hns

theorem stripKeep_append (a b : List String) :
    stripKeep (a ++ b) = stripKeep a ++ stripKeep b := by
  induction a with
  | nil => rfl
  | cons p ps ih =>
    rw [List.cons_append, stripKeep, stripKeep]
    split_ifs with h
    · exact ih
    · rw [ih, List.cons_append]

theorem stripKeep_elems (ps : List String) : ∀ q ∈ stripKeep ps,
    (∃ p ∈ ps, q = trimSpace p)
    ∧ listPre "index:".data q.data = false
    ∧ listPre "uniqueIndex:".data q.data = false := by
  induction ps with
  | nil => intro q hq; exact absurd hq (by simp [stripKeep])
  | cons p ps ih =>
    intro q hq
    rw [stripKeep] at hq
    split_ifs at hq with h
    · obtain ⟨⟨p', hp', hq'⟩, h2, h3⟩ := ih q hq
      exact ⟨⟨p', List.mem_cons_of_mem p hp', hq'⟩, h2, h3⟩
    · rcases List.mem_cons.mp hq with h1 | h1
      · subst h1
        simp only [Bool.or_eq_true, not_or, Bool.not_eq_true] at h
        exact ⟨⟨p, by simp, rfl⟩, h.1, h.2⟩
      · obtain ⟨⟨p', hp', hq'⟩, h2, h3⟩ := ih q h1
        exact ⟨⟨p', List.mem_cons_of_mem p hp', hq'⟩, h2, h3⟩

theorem stripKeep_id (ps : List String)
    (h : ∀ q ∈ ps, trimSpace q = q ∧ listPre "index:".data q.data = false
      ∧ listPre "uniqueIndex:".data q.data = false) : stripKeep ps = ps := by
  induction ps with
  | nil => rfl
  | cons p ps ih =>
    obtain ⟨ht, h1, h2⟩ := h p (by simp)
    rw [stripKeep]
    simp only [ht, h1, h2]
    rw [if_neg (by simp)]
    rw [ih (fun q hq => h q (List.mem_cons_of_mem p hq))]

theorem stripKeep_drops (frags : List String)
    (h : ∀ f ∈ frags, listPre "index:".data (trimSpace f).data = true) :
    stripKeep frags = [] := by
  induction frags with
  | nil => rfl
  | cons f fs ih =>
    rw [stripKeep]
    rw [if_pos (by rw [h f (by simp)]; simp)]
    exact ih (fun g hg => h g (List.mem_cons_of_mem f hg))

theorem joinStr_chars (sep : String) : ∀ ps : List String,
    ∀ c ∈ (joinStr sep ps).data, c ∈ sep.data ∨ ∃ p ∈ ps, c ∈ p.data := by
  intro ps
  induction ps with
  | nil => intro c hc; exact absurd hc (show c ∉ ([] : List Char) by simp)
  | cons p ps ih =>
    intro c hc
    cases ps with
    | nil =>
      rw [joinStr] at hc
      exact Or.inr ⟨p, by simp, hc⟩
    | cons q rest =>
      rw [joinStr_data_cons] at hc
      rcases List.mem_append.mp hc with h1 | h1
      · rcases List.mem_append.mp h1 with h2 | h2
        · exact Or.inr ⟨p, by simp, h2⟩
        · exact Or.inl h2
      · rcases ih c h1 with h2 | ⟨x, hx, hcx⟩
        · exact Or.inl h2
        · exact Or.inr ⟨x, List.mem_cons_of_mem p hx, hcx⟩

theorem joinStr_ne_empty (frags : List String) (hne : frags ≠ [])
    (h : ∀ f ∈ frags, f.data ≠ []) : (joinStr ";" frags).data ≠ [] := by
  cases frags with
  | nil => exact absurd rfl hne
  | cons f fs =>
    cases fs with
    | nil => exact h f (by simp)
    | cons g rest =>
      rw [joinStr_data_cons]
      intro hemp
      rcases List.append_eq_nil.mp (List.append_eq_nil.mp hemp).1 with ⟨h1, _⟩
      exact h f (by simp) h1

/-- Properties of the pieces the strip step keeps: each is a trimmed piece
of the input, stable under re-trimming, free of `;` and not carrying an
index marker; its characters come from the input. -/
theorem strip_pieces_props (g : String) : ∀ q ∈ stripKeep (strSplitSemi g),
    trimSpace q = q ∧ ';' ∉ q.data
    ∧ listPre "index:".data q.data = false
    ∧ listPre "uniqueIndex:".data q.data = false
    ∧ (∀ c ∈ q.data, c ∈ g.data) := by
  intro q hq
  obtain ⟨⟨p, hp, hqp⟩, h2, h3⟩ := stripKeep_elems (strSplitSemi g) q hq
  obtain ⟨piece, hpiece, hpp⟩ := List.mem_map.mp hp
  have hpdata : p.data = piece := by rw [← hpp, data_mk]
  have hsemi : ';' ∉ p.data := by
    rw [hpdata]
    exact mem_splitChar_no_sep ';' g.data piece hpiece
  have hchars : ∀ c ∈ p.data, c ∈ g.data := by
    rw [hpdata]
    exact mem_splitChar_subset ';' g.data piece hpiece
  subst hqp
  refine ⟨trimSpace_self p, ?_, h2, h3, ?_⟩
  · intro hmem
    exact hsemi (trimSpace_chars p ';' hmem)
  · intro c hc
    exact hchars c (trimSpace_chars p c hc)

theorem strSplitSemi_strip (g : String) (h : stripIndexPiecesFromGormTag g ≠ "") :
    strSplitSemi (stripIndexPiecesFromGormTag g) = stripKeep (strSplitSemi g) := by
  by_cases hg : g = ""
  · rw [stripIndexPiecesFromGormTag, if_pos hg] at h
    exact absurd rfl h
  · rw [stripIndexPiecesFromGormTag, if_neg hg] at h ⊢
    apply strSplitSemi_joinStr
    · intro hk
      rw [hk] at h
      exact h rfl
    · intro q hq
      exact (strip_pieces_props g q hq).2.1

theorem stripKeep_strip (g : String) :
    stripKeep (stripKeep (strSplitSemi g)) = stripKeep (strSplitSemi g) := by
  apply stripKeep_id
  intro q hq
  obtain ⟨h1, _, h3, h4, _⟩ := strip_pieces_props g q hq
  exact ⟨h1, h3, h4⟩

theorem strip_idem (g : String) :
    stripIndexPiecesFromGormTag (stripIndexPiecesFromGormTag g) =
      stripIndexPiecesFromGormTag g := by
  by_cases h0 : stripIndexPiecesFromGormTag g = ""
  · rw [h0, stripIndexPiecesFromGormTag, if_pos rfl]
  · rw [stripIndexPiecesFromGormTag, if_neg h0]
    rw [strSplitSemi_strip g h0, stripKeep_strip]
    by_cases hg : g = ""
    · rw [stripIndexPiecesFromGormTag, if_pos hg] at h0
      exact absurd rfl h0
    · rw [stripIndexPiecesFromGormTag, if_neg hg]

/-- A synthesized fragment is non-empty: it begins with `index:`. -/
theorem frag_data_ne_nil (f : String) (h : listPre "index:".data f.data = true) :
    f.data ≠ [] := by
  obtain ⟨t, ht⟩ := (listPre_iff_append "index:".data f.data).mp h
  rw [ht]
  simp

/-- Stripping the joined fragments alone yields the empty string: every
fragment still carries its `index:` marker after trimming and is dropped. -/
theorem strip_frags_empty (frags : List String) (hne : frags ≠ [])
    (hfr : ∀ f ∈ frags, listPre "index:".data f.data = true ∧ ';' ∉ f.data) :
    stripIndexPiecesFromGormTag (joinStr ";" frags) = "" := by
  have hjne : (joinStr ";" frags).data ≠ [] :=
    joinStr_ne_empty frags hne (fun f hf => frag_data_ne_nil f (hfr f hf).1)
  rw [stripIndexPiecesFromGormTag, if_neg (str_ne_empty_of_data _ hjne)]
  rw [strSplitSemi_joinStr frags hne (fun f hf => (hfr f hf).2)]
  rw [stripKeep_drops frags (fun f hf =>
    trimSpace_keeps_pre "index:" f (hfr f hf).1 (by decide) (by decide))]
  rfl

/-- Stripping the strip output with the joined fragments appended returns
the strip output: kept pieces survive, fragments are dropped. -/
theorem strip_append_frags (g : String) (frags : List String) (hne : frags ≠ [])
    (hfr : ∀ f ∈ frags, listPre "index:".data f.data = true ∧ ';' ∉ f.data)
    (h0 : stripIndexPiecesFromGormTag g ≠ "") :
    stripIndexPiecesFromGormTag (stripIndexPiecesFromGormTag g ++ ";" ++ joinStr ";" frags) =
      stripIndexPiecesFromGormTag g := by
  have hdata : (stripIndexPiecesFromGormTag g ++ ";" ++ joinStr ";" frags).data ≠ [] := by
    rw [String.data_append]
    intro hh
    rcases List.append_eq_nil.mp hh with ⟨h1, _⟩
    rw [String.data_append] at h1
    rcases List.append_eq_nil.mp h1 with ⟨h2, _⟩
    exact h0 (by cases hs : stripIndexPiecesFromGormTag g; simp_all [data_mk])
  rw [stripIndexPiecesFromGormTag, if_neg (str_ne_empty_of_data _ hdata)]
  rw [strSplitSemi_append, strSplitSemi_strip g h0]
  rw [strSplitSemi_joinStr frags hne (fun f hf => (hfr f hf).2)]
  rw [stripKeep_append, stripKeep_strip]
  rw [stripKeep_drops frags (fun f hf =>
    trimSpace_keeps_pre "index:" f (hfr f hf).1 (by decide) (by decide))]
  rw [List.append_nil]
  by_cases hg : g = ""
  · rw [stripIndexPiecesFromGormTag, if_pos hg] at h0
    exact absurd rfl h0
  · rw [stripIndexPiecesFromGormTag, if_neg hg]

/-- Characters of the strip output come from the input or are `;`. -/
theorem strip_chars (g : String) : ∀ c ∈ (stripIndexPiecesFromGormTag g).data,
    c = ';' ∨ c ∈ g.data := by
  intro c hc
  by_cases hg : g = ""
  · rw [stripIndexPiecesFromGormTag, if_pos hg] at hc
    exact absurd hc (by simp)
  · rw [stripIndexPiecesFromGormTag, if_neg hg] at hc
    rcases joinStr_chars ";" (stripKeep (strSplitSemi g)) c hc with h1 | ⟨q, hq, hcq⟩
    · left
      simpa using h1
    · right
      exact (strip_pieces_props g q hq).2.2.2.2 c hcq

/-!
Supporting lemmas for the amended claim C7, part 3: the association list
standing in for the Go tag map.
-/

/-- The keys of a tag map are pairwise distinct. -/
def keysNodup (kv : List (String × String)) : Prop :=
  (kv.map Prod.fst).Nodup

theorem insertKV_mem (kv : List (String × String)) (k v : String) :
    (k, v) ∈ insertKV kv k v := by
  induction kv with
  | nil => simp [insertKV]
  | cons p rest ih =>
    rw [insertKV]
    split_ifs with h
    · simp
    · exact List.mem_cons_of_mem p ih

theorem insertKV_subset (kv : List (String × String)) (k v : String) :
    ∀ q ∈ insertKV kv k v, q ∈ kv ∨ q = (k, v) := by
  induction kv with
  | nil => intro q hq; rw [insertKV, List.mem_singleton] at hq; exact Or.inr hq
  | cons p rest ih =>
    intro q hq
    rw [insertKV] at hq
    split_ifs at hq with h
    · rcases List.mem_cons.mp hq with h1 | h1
      · exact Or.inr h1
      · exact Or.inl (List.mem_cons_of_mem p h1)
    · rcases List.mem_cons.mp hq with h1 | h1
      · exact Or.inl (h1 ▸ List.mem_cons_self p rest)
      · rcases ih q h1 with h2 | h2
        · exact Or.inl (List.mem_cons_of_mem p h2)
        · exact Or.inr h2

theorem insertKV_keys (kv : List (String × String)) (k v : String) :
    (insertKV kv k v).map Prod.fst =
      if k ∈ kv.map Prod.fst then kv.map Prod.fst else kv.map Prod.fst ++ [k] := by
  induction kv with
  | nil => simp [insertKV]
  | cons p rest ih =>
    rw [insertKV]
    by_cases h : p.1 = k
    · rw [if_pos h, if_pos (by rw [List.map_cons]; exact List.mem_cons.mpr (Or.inl h.symm))]
      rw [List.map_cons, List.map_cons]
      simp [h]
    · rw [if_neg h]
      by_cases hmem : k ∈ rest.map Prod.fst
      · rw [if_pos (by rw [List.map_cons]; exact List.mem_cons.mpr (Or.inr hmem))]
        rw [List.map_cons, List.map_cons, ih, if_pos hmem]
      · rw [if_neg (by
          rw [List.map_cons]
          intro hc
          rcases List.mem_cons.mp hc with h1 | h1
          · exact h h1.symm
          · exact hmem h1)]
        rw [List.map_cons, List.map_cons, ih, if_neg hmem]
        rfl

theorem insertKV_nodup (kv : List (String × String)) (k v : String)
    (h : keysNodup kv) : keysNodup (insertKV kv k v) := by
  unfold keysNodup at *
  rw [insertKV_keys]
  split_ifs with hm
  · exact h
  · rw [List.nodup_append]
    exact ⟨h, List.nodup_singleton k, by simpa using fun hk => hm hk⟩

theorem insertKV_of_mem (kv : List (String × String)) (k v : String)
    (hmem : (k, v) ∈ kv) (hnd : keysNodup kv) : insertKV kv k v = kv := by
  induction kv with
  | nil => exact absurd hmem (by simp)
  | cons p rest ih =>
    unfold keysNodup at hnd
    rw [List.map_cons, List.nodup_cons] at hnd
    obtain ⟨hp1, hp2⟩ := hnd
    rw [insertKV]
    rcases List.mem_cons.mp hmem with h1 | h1
    · rw [if_pos (by rw [← h1])]
      rw [← h1]
    · have hk : p.1 ≠ k := fun he => hp1 (he ▸ List.mem_map.mpr ⟨(k, v), h1, rfl⟩)
      rw [if_neg hk, ih h1 hp2]

theorem lookupD_of_mem (kv : List (String × String)) (k v : String)
    (hmem : (k, v) ∈ kv) (hnd : keysNodup kv) : lookupD kv k = v := by
  induction kv with
  | nil => exact absurd hmem (by simp)
  | cons p rest ih =>
    unfold keysNodup at hnd
    rw [List.map_cons, List.nodup_cons] at hnd
    obtain ⟨hp1, hp2⟩ := hnd
    rw [lookupD, List.find?_cons]
    rcases List.mem_cons.mp hmem with h1 | h1
    · rw [show (decide (p.1 = k)) = true from by rw [← h1]; simp]
      simp [← h1]
    · have hk : p.1 ≠ k := fun he => hp1 (he ▸ List.mem_map.mpr ⟨(k, v), h1, rfl⟩)
      rw [show (decide (p.1 = k)) = false from by simp [hk]]
      have hr := ih h1 hp2
      rw [lookupD] at hr
      exact hr

theorem lookupD_of_not_mem (kv : List (String × String)) (k : String)
    (h : k ∉ kv.map Prod.fst) : lookupD kv k = "" := by
  induction kv with
  | nil => rfl
  | cons p rest ih =>
    rw [lookupD, List.find?_cons]
    rw [show (decide (p.1 = k)) = false from by
      simp only [decide_eq_false_iff_not]
      intro he
      exact h (by rw [List.map_cons]; exact List.mem_cons.mpr (Or.inl he.symm))]
    have hr := ih (fun hm => h (by rw [List.map_cons]; exact List.mem_cons.mpr (Or.inr hm)))
    rw [lookupD] at hr
    exact hr

theorem eraseKey_of_not_mem (kv : List (String × String)) (k : String)
    (h : k ∉ kv.map Prod.fst) : eraseKey kv k = kv := by
  unfold eraseKey
  apply List.filter_eq_self.mpr
  intro p hp
  simp only [ne_eq, decide_eq_true_eq]
  intro he
  exact h (List.mem_map.mpr ⟨p, hp, he⟩)

theorem eraseKey_subset (kv : List (String × String)) (k : String) :
    ∀ q ∈ eraseKey kv k, q ∈ kv := by
  intro q hq
  exact List.mem_of_mem_filter hq

theorem eraseKey_keys_not_mem (kv : List (String × String)) (k : String) :
    k ∉ (eraseKey kv k).map Prod.fst := by
  intro h
  obtain ⟨p, hp, hpk⟩ := List.mem_map.mp h
  have := List.of_mem_filter hp
  simp only [ne_eq, decide_eq_true_eq] at this
  exact this hpk

theorem eraseKey_nodup (kv : List (String × String)) (k : String)
    (h : keysNodup kv) : keysNodup (eraseKey kv k) := by
  unfold keysNodup at *
  exact List.Nodup.sublist (List.Sublist.map Prod.fst (List.filter_sublist kv)) h

theorem foldl_insertKV_append : ∀ (ps acc : List (String × String)),
    ((acc ++ ps).map Prod.fst).Nodup →
    ps.foldl (fun kv p => insertKV kv p.1 p.2) acc = acc ++ ps := by
  intro ps
  induction ps with
  | nil => intro acc _; simp
  | cons p rest ih =>
    intro acc hnd
    rw [List.foldl_cons]
    have hknotin : p.1 ∉ acc.map Prod.fst := by
      intro hmem
      rw [List.map_append, List.nodup_append] at hnd
      exact hnd.2.2 hmem (by simp)
    have hins : insertKV acc p.1 p.2 = acc ++ [p] := by
      clear hnd ih
      induction acc with
      | nil => simp [insertKV]
      | cons q qs ihq =>
        rw [insertKV]
        rw [if_neg (fun he => hknotin (by simp [he]))]
        rw [ihq (fun hm => hknotin (by simp at hm ⊢; tauto))]
        rfl
    rw [hins, ih (acc ++ [p]) (by simpa using hnd)]
    simp

/-!
Supporting lemmas for the amended claim C7, part 4: the tag scanner.
-/

/-- A scanned key: non-empty, all word characters. -/
def goodKey (k : List Char) : Prop :=
  k ≠ [] ∧ ∀ c ∈ k, wordChar c = true

/-- Scanner-state invariant carried through `scanGo`. -/
def stInv : ScanState → Prop
  | .seek => True
  | .key k => goodKey k
  | .afterColon k => goodKey k
  | .val k v => goodKey k ∧ '"' ∉ v

theorem scanGo_inv : ∀ (l : List Char) (st : ScanState), stInv st →
    ∀ p ∈ scanGo st l, goodKey p.1 ∧ '"' ∉ p.2 := by
  intro l
  induction l with
  | nil => intro st _ p hp; exact absurd hp (by simp [scanGo])
  | cons c cs ih =>
    intro st hst p hp
    cases st with
    | seek =>
      rw [scanGo] at hp
      split_ifs at hp with h
      · refine ih (.key [c]) ⟨by simp, ?_⟩ p hp
        intro x hx
        rw [List.mem_singleton] at hx
        subst hx
        exact h
      · exact ih .seek trivial p hp
    | key k =>
      rw [scanGo] at hp
      split_ifs at hp with h1 h2
      · refine ih (.key (k ++ [c])) ⟨by simp, ?_⟩ p hp
        intro x hx
        rcases List.mem_append.mp hx with hx1 | hx1
        · exact hst.2 x hx1
        · rw [List.mem_singleton] at hx1
          subst hx1
          exact h1
      · exact ih (.afterColon k) hst p hp
      · exact ih .seek trivial p hp
    | afterColon k =>
      rw [scanGo] at hp
      split_ifs at hp with h1 h2
      · exact ih (.val k []) ⟨hst, by simp⟩ p hp
      · refine ih (.key [c]) ⟨by simp, ?_⟩ p hp
        intro x hx
        rw [List.mem_singleton] at hx
        subst hx
        exact h2
      · exact ih .seek trivial p hp
    | val k v =>
      rw [scanGo] at hp
      split_ifs at hp with h
      · rcases List.mem_cons.mp hp with h1 | h1
        · subst h1
          exact hst
        · exact ih .seek trivial p h1
      · refine ih (.val k (v ++ [c])) ⟨hst.1, ?_⟩ p hp
        intro hm
        rcases List.mem_append.mp hm with hm1 | hm1
        · exact hst.2 hm1
        · rw [List.mem_singleton] at hm1
          exact h hm1.symm

theorem foldl_insert_inv (P : String × String → Prop) :
    ∀ (ps : List (List Char × List Char)) (acc : List (String × String)),
    (∀ q ∈ acc, P q) → (∀ p ∈ ps, P (String.mk p.1, String.mk p.2)) →
    ∀ q ∈ ps.foldl (fun kv p => insertKV kv (String.mk p.1) (String.mk p.2)) acc, P q := by
  intro ps
  induction ps with
  | nil => intro acc hacc _ q hq; exact hacc q hq
  | cons p rest ih =>
    intro acc hacc hps q hq
    rw [List.foldl_cons] at hq
    refine ih (insertKV acc (String.mk p.1) (String.mk p.2)) ?_ ?_ q hq
    · intro r hr
      rcases insertKV_subset acc _ _ r hr with h1 | h1
      · exact hacc r h1
      · subst h1
        exact hps p (by simp)
    · intro r hr
      exact hps r (List.mem_cons_of_mem p hr)

theorem parseStructTag_inv (tag : String) : ∀ q ∈ parseStructTag tag,
    goodKey q.1.data ∧ '"' ∉ q.2.data := by
  intro q hq
  unfold parseStructTag at hq
  refine foldl_insert_inv (fun q => goodKey q.1.data ∧ '"' ∉ q.2.data)
    (scanGo .seek tag.data) [] (by simp) ?_ q hq
  intro p hp
  have h := scanGo_inv tag.data .seek trivial p hp
  simpa [data_mk] using h

theorem foldl_insert_nodup : ∀ (ps : List (List Char × List Char))
    (acc : List (String × String)), keysNodup acc →
    keysNodup (ps.foldl (fun kv p => insertKV kv (String.mk p.1) (String.mk p.2)) acc) := by
  intro ps
  induction ps with
  | nil => intro acc h; exact h
  | cons p rest ih =>
    intro acc h
    rw [List.foldl_cons]
    exact ih _ (insertKV_nodup acc _ _ h)

theorem parseStructTag_nodup (tag : String) : keysNodup (parseStructTag tag) := by
  unfold parseStructTag
  exact foldl_insert_nodup _ [] (by simp [keysNodup])

theorem scanGo_val_run : ∀ (v k acc tail : List Char), '"' ∉ v →
    scanGo (.val k acc) (v ++ '"' :: tail) = (k, acc ++ v) :: scanGo .seek tail := by
  intro v
  induction v with
  | nil =>
    intro k acc tail _
    rw [List.nil_append, scanGo, if_pos rfl, List.append_nil]
  | cons c cs ih =>
    intro k acc tail h
    rw [List.cons_append, scanGo]
    rw [if_neg (fun he => h (by rw [he]; simp))]
    rw [ih k (acc ++ [c]) tail (fun hm => h (List.mem_cons_of_mem c hm))]
    rw [List.append_assoc]
    rfl

theorem scanGo_key_run : ∀ (ks k rest : List Char), (∀ c ∈ ks, wordChar c = true) →
    scanGo (.key k) (ks ++ rest) = scanGo (.key (k ++ ks)) rest := by
  intro ks
  induction ks with
  | nil => intro k rest _; rw [List.nil_append, List.append_nil]
  | cons c cs ih =>
    intro k rest h
    rw [List.cons_append, scanGo, if_pos (h c (by simp))]
    rw [ih (k ++ [c]) rest (fun x hx => h x (List.mem_cons_of_mem c hx))]
    rw [List.append_assoc]
    rfl

theorem partStr_data (k v : String) :
    (partStr (k, v)).data = k.data ++ ':' :: '"' :: (v.data ++ ['"']) := by
  unfold partStr
  rw [String.data_append, String.data_append, String.data_append]
  rw [List.append_assoc, List.append_assoc]
  rfl

theorem scan_one_run : ∀ kd vd tail : List Char, goodKey kd → '"' ∉ vd →
    scanGo .seek (kd ++ ':' :: '"' :: (vd ++ '"' :: tail)) = (kd, vd) :: scanGo .seek tail := by
  intro kd vd tail hk hv
  cases hkd : kd with
  | nil => exact absurd hkd hk.1
  | cons c ks =>
    have hw : ∀ x ∈ kd, wordChar x = true := hk.2
    rw [hkd] at hw
    rw [List.cons_append, scanGo, if_pos (hw c (by simp))]
    rw [scanGo_key_run ks [c] _ (fun x hx => hw x (List.mem_cons_of_mem c hx))]
    rw [scanGo, if_neg (by decide), if_pos rfl]
    rw [scanGo, if_pos rfl]
    rw [scanGo_val_run vd ([c] ++ ks) [] tail hv]
    rw [List.nil_append]
    rfl

theorem scan_one (k v : String) (tail : List Char)
    (hk : goodKey k.data) (hv : '"' ∉ v.data) :
    scanGo .seek ((partStr (k, v)).data ++ tail) = (k.data, v.data) :: scanGo .seek tail := by
  have h1 : (partStr (k, v)).data ++ tail = k.data ++ ':' :: '"' :: (v.data ++ '"' :: tail) := by
    rw [partStr_data]
    simp [List.append_assoc]
  rw [h1]
  exact scan_one_run k.data v.data tail hk hv

theorem scan_pairs : ∀ ps : List (String × String),
    (∀ p ∈ ps, goodKey p.1.data ∧ '"' ∉ p.2.data) →
    scanGo .seek (joinStr " " (ps.map partStr)).data =
      ps.map (fun p => (p.1.data, p.2.data)) := by
  intro ps
  induction ps with
  | nil => intro _; rfl
  | cons p rest ih =>
    intro h
    cases rest with
    | nil =>
      rw [List.map_cons, List.map_nil, joinStr]
      have h1 := scan_one p.1 p.2 [] (h p (by simp)).1 (h p (by simp)).2
      rw [List.append_nil] at h1
      rw [h1]
      rfl
    | cons q rest' =>
      rw [List.map_cons, List.map_cons, joinStr_data_cons]
      rw [List.append_assoc]
      have hsp : ∀ X : List Char, (" " : String).data ++ X = ' ' :: X := fun X => rfl
      rw [hsp]
      rw [scan_one p.1 p.2 _ (h p (by simp)).1 (h p (by simp)).2]
      rw [scanGo, if_neg (by decide)]
      rw [List.map_cons] at ih
      rw [ih (fun x hx => h x (List.mem_cons_of_mem p hx))]
      rfl

/-!
Supporting lemmas for the amended claim C7, part 5: the lexicographic sort.
-/

theorem charsLe_total : ∀ a b : List Char, charsLe a b = true ∨ charsLe b a = true := by
  intro a
  induction a with
  | nil => intro b; left; rfl
  | cons x xs ih =>
    intro b
    cases b with
    | nil => right; rfl
    | cons y ys =>
      rw [charsLe, charsLe]
      by_cases hxy : x = y
      · subst hxy
        rw [if_pos rfl, if_pos rfl]
        exact ih ys
      · rw [if_neg hxy, if_neg (fun h => hxy h.symm)]
        rcases lt_trichotomy x y with h | h | h
        · left; simpa using h
        · exact absurd h hxy
        · right; simpa using h

theorem charsLe_trans : ∀ a b c : List Char,
    charsLe a b = true → charsLe b c = true → charsLe a c = true := by
  intro a
  induction a with
  | nil => intro b c _ _; rfl
  | cons x xs ih =>
    intro b c hab hbc
    cases b with
    | nil => exact absurd hab (by rw [charsLe]; simp)
    | cons y ys =>
      cases c with
      | nil => exact absurd hbc (by rw [charsLe]; simp)
      | cons z zs =>
        rw [charsLe] at hab hbc ⊢
        by_cases hxy : x = y
        · subst hxy
          rw [if_pos rfl] at hab
          by_cases hyz : x = z
          · subst hyz
            rw [if_pos rfl] at hbc
            rw [if_pos rfl]
            exact ih ys zs hab hbc
          · rw [if_neg hyz] at hbc
            rw [if_neg hyz]
            exact hbc
        · rw [if_neg hxy] at hab
          by_cases hyz : y = z
          · subst hyz
            rw [if_neg hxy]
            exact hab
          · rw [if_neg hyz] at hbc
            by_cases hxz : x = z
            · subst hxz
              simp only [decide_eq_true_eq] at hab hbc
              exact absurd (lt_trans hab hbc) (lt_irrefl x)
            · rw [if_neg hxz]
              simp only [decide_eq_true_eq] at hab hbc ⊢
              exact lt_trans hab hbc

theorem charsLe_antisymm : ∀ a b : List Char,
    charsLe a b = true → charsLe b a = true → a = b := by
  intro a
  induction a with
  | nil =>
    intro b _ hba
    cases b with
    | nil => rfl
    | cons y ys => exact absurd hba (by rw [charsLe]; simp)
  | cons x xs ih =>
    intro b hab hba
    cases b with
    | nil => exact absurd hab (by rw [charsLe]; simp)
    | cons y ys =>
      rw [charsLe] at hab hba
      by_cases hxy : x = y
      · subst hxy
        rw [if_pos rfl] at hab hba
        rw [ih ys hab hba]
      · rw [if_neg hxy] at hab
        rw [if_neg (fun h => hxy h.symm)] at hba
        simp only [decide_eq_true_eq] at hab hba
        exact absurd (lt_trans hab hba) (lt_irrefl x)

instance : IsTotal String (fun a b : String => strLeB a b = true) :=
  ⟨fun a b => charsLe_total a.data b.data⟩

instance : IsTrans String (fun a b : String => strLeB a b = true) :=
  ⟨fun a b c => charsLe_trans a.data b.data c.data⟩

instance : IsAntisymm String (fun a b : String => strLeB a b = true) :=
  ⟨fun a b hab hba => by
    have h := charsLe_antisymm a.data b.data hab hba
    have := congrArg String.mk h
    rwa [strEta, strEta] at this⟩

/-- The pair ordering induced by comparing serialized parts. -/
def partLe (p q : String × String) : Prop :=
  strLeB (partStr p) (partStr q) = true

instance (p q : String × String) : Decidable (partLe p q) := by
  unfold partLe; infer_instance

/-- The tag map in the order `buildStructTag` serializes it. -/
def sortPairs (kv : List (String × String)) : List (String × String) :=
  List.insertionSort partLe kv

theorem orderedInsert_map_partStr (p : String × String) :
    ∀ l : List (String × String),
    List.orderedInsert (fun a b : String => strLeB a b = true) (partStr p) (l.map partStr) =
      (List.orderedInsert partLe p l).map partStr := by
  intro l
  induction l with
  | nil => rfl
  | cons q rest ih =>
    rw [List.map_cons, List.orderedInsert, List.orderedInsert]
    simp only [partLe]
    split_ifs with h
    · simp
    · rw [List.map_cons, ih]

theorem insertionSort_map_partStr : ∀ kv : List (String × String),
    List.insertionSort (fun a b : String => strLeB a b = true) (kv.map partStr) =
      (sortPairs kv).map partStr := by
  intro kv
  induction kv with
  | nil => rfl
  | cons p rest ih =>
    rw [List.map_cons, List.insertionSort, ih]
    unfold sortPairs
    rw [List.insertionSort]
    exact orderedInsert_map_partStr p (List.insertionSort partLe rest)

theorem sortPairs_perm (kv : List (String × String)) : (sortPairs kv).Perm kv :=
  List.perm_insertionSort partLe kv

theorem buildStructTag_eq_of_perm (kv kv' : List (String × String)) (h : kv.Perm kv') :
    buildStructTag kv = buildStructTag kv' := by
  by_cases he : kv = []
  · subst he
    have h2 : kv' = [] := (h.symm).eq_nil
    subst h2
    rfl
  · have he' : kv' ≠ [] := fun h2 => he (h2 ▸ h).eq_nil
    unfold buildStructTag
    rw [if_neg (by simpa using he), if_neg (by simpa using he')]
    congr 1
    apply List.eq_of_perm_of_sorted (r := fun a b : String => strLeB a b = true)
    · exact ((List.perm_insertionSort _ _).trans (h.map partStr)).trans
        (List.perm_insertionSort _ _).symm
    · exact List.sorted_insertionSort _ _
    · exact List.sorted_insertionSort _ _

/-- Parsing the serialized tag map recovers exactly the map, in serialized
order: the regex scanner inverts `buildStructTag` on maps with word-only
keys and quote-free values. -/
theorem parse_build (kv : List (String × String))
    (hkv : ∀ p ∈ kv, goodKey p.1.data ∧ '"' ∉ p.2.data)
    (hnd : keysNodup kv) :
    parseStructTag (buildStructTag kv) = sortPairs kv := by
  by_cases he : kv = []
  · subst he
    rfl
  · unfold buildStructTag
    rw [if_neg (by simpa using he)]
    rw [insertionSort_map_partStr]
    unfold parseStructTag
    rw [scan_pairs (sortPairs kv) (fun p hp => hkv p ((sortPairs_perm kv).subset hp))]
    simp only [List.foldl_map, strEta]
    have hnd2 : (([] ++ sortPairs kv).map Prod.fst).Nodup := by
      rw [List.nil_append]
      exact (List.Perm.nodup_iff ((sortPairs_perm kv).map Prod.fst)).mpr hnd
    have hfold := foldl_insertKV_append (sortPairs kv) [] hnd2
    rw [List.nil_append] at hfold
    exact hfold

/-- `mergeIndexIntoGormTag` with no fragments, unfolded. -/
theorem merge_nil (t : String) :
    mergeIndexIntoGormTag t [] =
      (if stripIndexPiecesFromGormTag (lookupD (parseStructTag t) "gorm") = "" then
        buildStructTag (eraseKey (parseStructTag t) "gorm")
      else
        buildStructTag (insertKV (parseStructTag t) "gorm"
          (stripIndexPiecesFromGormTag (lookupD (parseStructTag t) "gorm")))) := by
  unfold mergeIndexIntoGormTag
  dsimp only
  simp

/-- `mergeIndexIntoGormTag` with at least one fragment, unfolded. -/
theorem merge_cons (t f : String) (fs : List String) :
    mergeIndexIntoGormTag t (f :: fs) =
      (if (if stripIndexPiecesFromGormTag (lookupD (parseStructTag t) "gorm") = "" then
            joinStr ";" (f :: fs)
          else
            stripIndexPiecesFromGormTag (lookupD (parseStructTag t) "gorm") ++ ";" ++
              joinStr ";" (f :: fs)) = "" then
        buildStructTag (eraseKey (parseStructTag t) "gorm")
      else
        buildStructTag (insertKV (parseStructTag t) "gorm"
          (if stripIndexPiecesFromGormTag (lookupD (parseStructTag t) "gorm") = "" then
            joinStr ";" (f :: fs)
          else
            stripIndexPiecesFromGormTag (lookupD (parseStructTag t) "gorm") ++ ";" ++
              joinStr ";" (f :: fs)))) := by
  unfold mergeIndexIntoGormTag
  dsimp only
  simp

theorem str_eq_empty_of_data (s : String) (h : s.data = []) : s = "" := by
  have h2 := congrArg String.mk h
  rw [strEta] at h2
  exact h2

/-- Claim C7 (amended: the fragments being merged must be free of `;` and
`"` characters — true of every fragment whose sort, where, type and
operator-class strings avoid those characters — and must carry the `index:`
marker, as every synthesized fragment does): with such fragments, the merge
step strips prior index fragments, appends the new ones, re-serializes with
lexicographically sorted keys, and performing synthesis twice over identical
input — the second time over the tag already containing the synthesized
fragments — yields a byte-identical tag. -/
theorem claim_C7 (orig : String) (toAdd : List String)
    (hfr : ∀ f ∈ toAdd, listPre "index:".data f.data = true ∧ ';' ∉ f.data ∧ '"' ∉ f.data) :
    mergeIndexIntoGormTag (mergeIndexIntoGormTag orig toAdd) toAdd =
      mergeIndexIntoGormTag orig toAdd := by
  have F1 := parseStructTag_inv orig
  have F2 := parseStructTag_nodup orig
  have F3 : '"' ∉ (lookupD (parseStructTag orig) "gorm").data := by
    unfold lookupD
    cases hf : (parseStructTag orig).find? (fun p => p.1 = "gorm") with
    | none => decide
    | some q => exact (F1 q (List.mem_of_find?_eq_some hf)).2
  have F4 : '"' ∉ (stripIndexPiecesFromGormTag (lookupD (parseStructTag orig) "gorm")).data := by
    intro hc
    rcases strip_chars _ '"' hc with h1 | h1
    · exact absurd h1 (by decide)
    · exact F3 h1
  have hgormKey : goodKey ("gorm" : String).data := ⟨by decide, by decide⟩
  cases toAdd with
  | nil =>
    rw [merge_nil orig]
    by_cases hg1 : stripIndexPiecesFromGormTag (lookupD (parseStructTag orig) "gorm") = ""
    · rw [if_pos hg1, merge_nil]
      rw [parse_build _ (fun p hp => F1 p (eraseKey_subset _ _ p hp)) (eraseKey_nodup _ _ F2)]
      have hknot : "gorm" ∉
          (sortPairs (eraseKey (parseStructTag orig) "gorm")).map Prod.fst := by
        intro hm
        exact eraseKey_keys_not_mem (parseStructTag orig) "gorm"
          (((sortPairs_perm _).map Prod.fst).subset hm)
      rw [lookupD_of_not_mem _ _ hknot]
      rw [show stripIndexPiecesFromGormTag "" = "" from rfl]
      rw [if_pos rfl]
      rw [eraseKey_of_not_mem _ _ hknot]
      exact buildStructTag_eq_of_perm _ _ (sortPairs_perm _)
    · rw [if_neg hg1, merge_nil]
      have hkv1inv : ∀ p ∈ insertKV (parseStructTag orig) "gorm"
          (stripIndexPiecesFromGormTag (lookupD (parseStructTag orig) "gorm")),
          goodKey p.1.data ∧ '"' ∉ p.2.data := by
        intro p hp
        rcases insertKV_subset _ _ _ p hp with h1 | h1
        · exact F1 p h1
        · subst h1
          exact ⟨hgormKey, F4⟩
      have hkv1nd := insertKV_nodup (parseStructTag orig) "gorm"
        (stripIndexPiecesFromGormTag (lookupD (parseStructTag orig) "gorm")) F2
      rw [parse_build _ hkv1inv hkv1nd]
      have hnd2 : keysNodup (sortPairs (insertKV (parseStructTag orig) "gorm"
          (stripIndexPiecesFromGormTag (lookupD (parseStructTag orig) "gorm")))) :=
        (List.Perm.nodup_iff ((sortPairs_perm _).map Prod.fst)).mpr hkv1nd
      have hmem2 : ("gorm",
          stripIndexPiecesFromGormTag (lookupD (parseStructTag orig) "gorm")) ∈
          sortPairs (insertKV (parseStructTag orig) "gorm"
            (stripIndexPiecesFromGormTag (lookupD (parseStructTag orig) "gorm"))) :=
        ((sortPairs_perm _).mem_iff).mpr (insertKV_mem _ _ _)
      rw [lookupD_of_mem _ _ _ hmem2 hnd2]
      rw [strip_idem]
      rw [if_neg hg1]
      rw [insertKV_of_mem _ _ _ hmem2 hnd2]
      exact buildStructTag_eq_of_perm _ _ (sortPairs_perm _)
  | cons f fs =>
    have hAne : joinStr ";" (f :: fs) ≠ "" :=
      str_ne_empty_of_data _ (joinStr_ne_empty (f :: fs) (by simp)
        (fun x hx => frag_data_ne_nil x (hfr x hx).1))
    have hAq : '"' ∉ (joinStr ";" (f :: fs)).data := by
      intro hc
      rcases joinStr_chars ";" (f :: fs) '"' hc with h1 | ⟨x, hx, hcx⟩
      · exact absurd h1 (by decide)
      · exact (hfr x hx).2.2 hcx
    rw [merge_cons orig f fs]
    by_cases hg1 : stripIndexPiecesFromGormTag (lookupD (parseStructTag orig) "gorm") = ""
    · rw [if_pos hg1]
      rw [if_neg hAne, merge_cons]
      have hkv1inv : ∀ p ∈ insertKV (parseStructTag orig) "gorm" (joinStr ";" (f :: fs)),
          goodKey p.1.data ∧ '"' ∉ p.2.data := by
        intro p hp
        rcases insertKV_subset _ _ _ p hp with h1 | h1
        · exact F1 p h1
        · subst h1
          exact ⟨hgormKey, hAq⟩
      have hkv1nd := insertKV_nodup (parseStructTag orig) "gorm" (joinStr ";" (f :: fs)) F2
      rw [parse_build _ hkv1inv hkv1nd]
      have hnd2 : keysNodup (sortPairs (insertKV (parseStructTag orig) "gorm"
          (joinStr ";" (f :: fs)))) :=
        (List.Perm.nodup_iff ((sortPairs_perm _).map Prod.fst)).mpr hkv1nd
      have hmem2 : ("gorm", joinStr ";" (f :: fs)) ∈
          sortPairs (insertKV (parseStructTag orig) "gorm" (joinStr ";" (f :: fs))) :=
        ((sortPairs_perm _).mem_iff).mpr (insertKV_mem _ _ _)
      rw [lookupD_of_mem _ _ _ hmem2 hnd2]
      rw [strip_frags_empty (f :: fs) (by simp)
        (fun x hx => ⟨(hfr x hx).1, (hfr x hx).2.1⟩)]
      rw [if_pos rfl]
      rw [if_neg hAne]
      rw [insertKV_of_mem _ _ _ hmem2 hnd2]
      exact buildStructTag_eq_of_perm _ _ (sortPairs_perm _)
    · rw [if_neg hg1]
      have hgvne : stripIndexPiecesFromGormTag (lookupD (parseStructTag orig) "gorm") ++ ";" ++
          joinStr ";" (f :: fs) ≠ "" := by
        intro he
        have hd := congrArg String.data he
        rw [String.data_append] at hd
        exact hAne (str_eq_empty_of_data _ (List.append_eq_nil.mp hd).2)
      rw [if_neg hgvne, merge_cons]
      have hgvq : '"' ∉ (stripIndexPiecesFromGormTag (lookupD (parseStructTag orig) "gorm") ++
          ";" ++ joinStr ";" (f :: fs)).data := by
        rw [String.data_append, String.data_append]
        intro hc
        rcases List.mem_append.mp hc with h1 | h1
        · rcases List.mem_append.mp h1 with h2 | h2
          · exact F4 h2
          · exact absurd h2 (by decide)
        · exact hAq h1
      have hkv1inv : ∀ p ∈ insertKV (parseStructTag orig) "gorm"
          (stripIndexPiecesFromGormTag (lookupD (parseStructTag orig) "gorm") ++ ";" ++
            joinStr ";" (f :: fs)),
          goodKey p.1.data ∧ '"' ∉ p.2.data := by
        intro p hp
        rcases insertKV_subset _ _ _ p hp with h1 | h1
        · exact F1 p h1
        · subst h1
          exact ⟨hgormKey, hgvq⟩
      have hkv1nd := insertKV_nodup (parseStructTag orig) "gorm"
        (stripIndexPiecesFromGormTag (lookupD (parseStructTag orig) "gorm") ++ ";" ++
          joinStr ";" (f :: fs)) F2
      rw [parse_build _ hkv1inv hkv1nd]
      have hnd2 : keysNodup (sortPairs (insertKV (parseStructTag orig) "gorm"
          (stripIndexPiecesFromGormTag (lookupD (parseStructTag orig) "gorm") ++ ";" ++
            joinStr ";" (f :: fs)))) :=
        (List.Perm.nodup_iff ((sortPairs_perm _).map Prod.fst)).mpr hkv1nd
      have hmem2 : ("gorm",
          stripIndexPiecesFromGormTag (lookupD (parseStructTag orig) "gorm") ++ ";" ++
            joinStr ";" (f :: fs)) ∈
          sortPairs (insertKV (parseStructTag orig) "gorm"
            (stripIndexPiecesFromGormTag (lookupD (parseStructTag orig) "gorm") ++ ";" ++
              joinStr ";" (f :: fs))) :=
        ((sortPairs_perm _).mem_iff).mpr (insertKV_mem _ _ _)
      rw [lookupD_of_mem _ _ _ hmem2 hnd2]
      rw [strip_append_frags (lookupD (parseStructTag orig) "gorm") (f :: fs) (by simp)
        (fun x hx => ⟨(hfr x hx).1, (hfr x hx).2.1⟩) hg1]
      rw [if_neg hg1]
      rw [if_neg hgvne]
      rw [insertKV_of_mem _ _ _ hmem2 hnd2]
      exact buildStructTag_eq_of_perm _ _ (sortPairs_perm _)

/-- Witness for claim C7: re-merging a well-formed fragment list into an
already-merged tag reproduces the tag byte for byte. -/
theorem claim_C7_witness :
    mergeIndexIntoGormTag
        (mergeIndexIntoGormTag "json:\"a\" gorm:\"index:old;not null\"" ["index:i,priority:1"])
        ["index:i,priority:1"] =
      mergeIndexIntoGormTag "json:\"a\" gorm:\"index:old;not null\"" ["index:i,priority:1"] :=
  claim_C7 "json:\"a\" gorm:\"index:old;not null\"" ["index:i,priority:1"] (by decide)

/-- The end-to-end scenario of the test fixture (`NotebookFile`): fields
`TenantID, ScanVersion, FileName`, one `gin` index over them whose last
column carries the `gin_trgm_ops` operator class, with extensions
`pg_trgm` and `btree_gin`. -/
def endToEndModel : GoModel :=
  { baseIsStruct := true
    fields := [⟨"TenantID", true, ""⟩, ⟨"ScanVersion", true, ""⟩, ⟨"FileName", true, ""⟩]
    indexes := .withSig 0 1 (.slice [
      { Name := "idx_trgm"
        Columns := [⟨selFor 0, "", "", ""⟩, ⟨selFor 1, "", "", ""⟩,
                    ⟨selFor 2, "", "", "gin_trgm_ops"⟩]
        Unique := false, Where := "", Typ := "gin"
        Extensions := ["pg_trgm", "btree_gin"] }])
    tabler := some "notebook_files" }

example : AutoMigrateModel (some endToEndModel) = .clone
    [⟨"TenantID", true, "gorm:\"index:idx_trgm,priority:1,type:gin\""⟩,
     ⟨"ScanVersion", true, "gorm:\"index:idx_trgm,priority:2\""⟩,
     ⟨"FileName", true,
       "gorm:\"index:idx_trgm,priority:3,expression:file_name gin_trgm_ops\""⟩]
    (some "notebook_files") := by decide

example : ExtractRequiredExtensions (some endToEndModel) = ["pg_trgm", "btree_gin"] := by decide

example : toSnakeCase "FileName" = "file_name" := by decide
example : toSnakeCase "TenantID" = "tenant_id" := by decide
example : toSnakeCase "HTTPServer" = "http_server" := by decide
example : trimSpace "  a b\t " = "a b" := by decide
example : strSplitSemi "a;;b" = ["a", "", "b"] := by decide
example : joinStr ";" ["a", "", "b"] = "a;;b" := by decide
example : listPre "index:".data "index:foo".data = true := by decide
